import Mathlib

/-!
Shallow embedding of the rank-assignment / constraint-resolution engine of
`aptorphan.py` (class `Manager`), together with the surrounding run pipeline
(`__init__` seeding, `rank_by_name`, `rank`, `rank_once`, `__resolve_once`,
the dependency-kind handlers, `rank_unresolved`, and the Version→Package rank
propagation performed by `dump_unresolved`).

Modelling conventions:
* Versions and packages are identified by natural numbers (the `id` fields of
  the underlying apt objects).
* A dependency (one alternative of an OR-group) is modelled by the list of
  target version ids returned by `dependency.all_targets()`; an OR-group is a
  list of dependencies.  `expandOrGroup` mirrors `Manager.__expand_or_group`
  (first-seen deduplicated concatenation).
* Python `set` objects become `Finset Nat`; Python lists stay lists.
* Python truthiness tests on `version.rank` (`if version.rank:`,
  `any(target.rank for target in targets)`) are modelled by `truthy`, which is
  false exactly on `none` and `some 0` (ranks assigned by the program are
  always ≥ 1 because the generation counter is incremented before use).
* The nondeterministic `set.pop()` drain order of `rank_once` is made explicit:
  `rankOnceWith` takes the drain order as a parameter, and `rankOnce` uses the
  canonical order induced by the database's version list.
* Exceptions (`raise Exception(...)`) become `Except String`; `while` loops
  become fuel-indexed recursion returning `none` when the fuel is exhausted.
-/

namespace Aptorphan

/-- One alternative of a dependency OR-group: the ordered list of target
version ids produced by `dependency.all_targets()`. -/
abbrev Dep := List Nat

/-- An OR-group as passed to the kind handlers: the ordered list of its
dependency alternatives. -/
abbrev OrGroup := List Dep

/-- The dependency kinds dispatched by `Manager.__resolve`. -/
inductive Kind where
  | conflicts | depends | breaks | enhances | obsoletes
  | preDepends | recommends | replaces | suggests
  deriving DecidableEq, Repr

/-- Read-only snapshot of the package database, as consumed by `Manager`. -/
structure DB where
  /-- all version ids, in the enumeration order of `Manager.__versions`. -/
  vers : List Nat
  /-- all package ids, in the enumeration order of `Manager.__packages`. -/
  pkgs : List Nat
  /-- `version.parent_pkg.id`. -/
  parent : Nat → Nat
  /-- `package.name` (used as the sort key for waves). -/
  pname : Nat → String
  /-- `version.depends_list.items()`: kind together with its AND-list of
  OR-groups. -/
  deps : Nat → List (Kind × List OrGroup)
  /-- `DepCache.get_candidate_ver`, per package; `none` for packages without
  versions. -/
  candOf : Nat → Option Nat
  /-- the providing version of each `provides_list` entry of a package
  (`package.provides_list[i][2]`). -/
  providesList : Nat → List Nat
  /-- `Cache.find_package_by_name`; `none` models the `KeyError`. -/
  pkgByName : String → Option Nat
  /-- `version.priority` (apt: 1 = required, 2 = important, 3 = standard). -/
  prio : Nat → Nat
  /-- `version.arch`. -/
  arch : Nat → String
  /-- foreign architectures, `apt_pkg.get_architectures()[1:]`. -/
  foreign : List String

/-- The mutable resolution state: the lazily defaulted attributes of the
`Version` wrappers plus the generation counter `Manager.__rank`. -/
@[ext] structure St where
  rank : Nat → Option Nat
  hint : Nat → Option String
  conflicts : Nat → Finset Nat
  unresolved : Nat → List (Bool × OrGroup)
  notify : Nat → Finset Nat
  replacedBy : Nat → Finset Nat
  /-- `version.is_candidate_version`, set once during `Manager.__init__`. -/
  cand : Nat → Bool
  /-- the generation counter `Manager.__rank`. -/
  gen : Nat

/-- Pointwise update of a state field. -/
def updF {α : Type} (f : Nat → α) (k : Nat) (a : α) : Nat → α :=
  fun x => if x = k then a else f x

@[simp] theorem updF_same {α : Type} (f : Nat → α) (k : Nat) (a : α) :
    updF f k a k = a := by simp [updF]

@[simp] theorem updF_other {α : Type} (f : Nat → α) (k x : Nat) (a : α)
    (h : x ≠ k) : updF f k a x = f x := by simp [updF, h]

/-- Python truthiness of a `version.rank` value. -/
def truthy : Option Nat → Bool
  | none => false
  | some n => decide (n ≠ 0)

/-- `Manager.__expand_or_group`: first-seen deduplication of the concatenated
target lists of the group's alternatives. -/
def expandGo (seen : Finset Nat) : List Nat → List Nat
  | [] => []
  | t :: ts => if t ∈ seen then expandGo seen ts else t :: expandGo (insert t seen) ts

def expandOrGroup (g : OrGroup) : List Nat :=
  expandGo ∅ g.flatten

/-- `candidates` in `Manager.__resolve_once`: the targets that are their
package's candidate version. -/
def candidatesOf (σ : St) (targets : List Nat) : List Nat :=
  targets.filter (fun t => σ.cand t)

/-- `preferred` in `Manager.__resolve_once`: the candidates with an empty
conflict set. -/
def preferredOf (σ : St) (targets : List Nat) : List Nat :=
  (candidatesOf σ targets).filter (fun t => decide (σ.conflicts t = ∅))

/-- `Manager.__resolve_once`. -/
def resolveOnce (σ : St) (targets : List Nat) (useFirst : Bool) : Option Nat :=
  if (preferredOf σ targets).length = 1 ∨
      ((preferredOf σ targets).length > 1 ∧ useFirst = true) then
    (preferredOf σ targets).head?
  else if (candidatesOf σ targets).length = 1 ∨
      ((candidatesOf σ targets).length > 1 ∧ useFirst = true) then
    (candidatesOf σ targets).head?
  else none

/-- The per-target body of `Manager.__resolve_conflicts`: record the symmetric
conflict edge and re-queue every notify subscriber of the target that still has
a non-empty unresolved list. -/
def addConflictTarget (v t : Nat) (sp : St × Finset Nat) : St × Finset Nat :=
  let σ := sp.1
  let σ₁ := { σ with conflicts := updF σ.conflicts v (insert t (σ.conflicts v)) }
  let σ₂ := { σ₁ with conflicts := updF σ₁.conflicts t (insert v (σ₁.conflicts t)) }
  (σ₂, sp.2 ∪ (σ₂.notify t).filter (fun s => σ₂.unresolved s ≠ []))

/-- `Manager.__resolve_conflicts` (also used for Breaks). -/
def resolveConflicts (v : Nat) (g : OrGroup) (sp : St × Finset Nat) :
    Except String (St × Finset Nat) :=
  if g.length ≠ 1 then .error "unexpected conflicts"
  else .ok ((expandOrGroup g).foldl (fun sp t => addConflictTarget v t sp) sp)

/-- `Manager.__resolve_replaces`. -/
def resolveReplaces (v : Nat) (g : OrGroup) (sp : St × Finset Nat) :
    Except String (St × Finset Nat) :=
  if g.length ≠ 1 then .error "unexpected replaces"
  else .ok ((expandOrGroup g).foldl
      (fun sp t =>
        ({ sp.1 with replacedBy := updF sp.1.replacedBy t (insert v (sp.1.replacedBy t)) }, sp.2))
      sp)

/-- Append the group to `v.unresolved` and register `v` in the notify set of
every expansion target (`Manager.__resolve_depends_and_recommends`). -/
def registerGroup (optional : Bool) (v : Nat) (g : OrGroup) (sp : St × Finset Nat) :
    St × Finset Nat :=
  let σ := sp.1
  let σ₁ := { σ with unresolved := updF σ.unresolved v (σ.unresolved v ++ [(optional, g)]) }
  ((expandOrGroup g).foldl
      (fun σ t => { σ with notify := updF σ.notify t (insert v (σ.notify t)) }) σ₁,
   sp.2)

def resolveDependsAndRecommends (v : Nat) (g : OrGroup) (optional : Bool)
    (sp : St × Finset Nat) : Except String (St × Finset Nat) :=
  .ok (registerGroup optional v g sp)

/-- The first (shadowed, unreachable) definition of `Manager.__resolve_depends`
in the source: it stores the group with `optional = False`. -/
def resolveDependsShadowed (v : Nat) (g : OrGroup) (sp : St × Finset Nat) :
    Except String (St × Finset Nat) :=
  resolveDependsAndRecommends v g false sp

/-- The second (reachable) definition of `Manager.__resolve_depends`: it stores
the group with `optional = True`. -/
def resolveDepends (v : Nat) (g : OrGroup) (sp : St × Finset Nat) :
    Except String (St × Finset Nat) :=
  resolveDependsAndRecommends v g true sp

/-- `Manager.__resolve_recommends` (its body is a literal copy of
`__resolve_depends_and_recommends` with `optional = True`). -/
def resolveRecommends (v : Nat) (g : OrGroup) (sp : St × Finset Nat) :
    Except String (St × Finset Nat) :=
  .ok (registerGroup true v g sp)

/-- The dispatch table `Manager.__resolve`. -/
def dispatch : Kind → Nat → OrGroup → St × Finset Nat → Except String (St × Finset Nat)
  | .conflicts => resolveConflicts
  | .depends => resolveDepends
  | .breaks => resolveConflicts
  | .enhances => fun _ _ sp => .ok sp
  | .obsoletes => fun _ _ sp => .ok sp
  | .preDepends => resolveDepends
  | .recommends => resolveRecommends
  | .replaces => resolveReplaces
  | .suggests => fun _ _ sp => .ok sp

/-- Apply one kind's handler to each of its OR-groups in order. -/
def applyGroups (k : Kind) (v : Nat) : List OrGroup → St × Finset Nat →
    Except String (St × Finset Nat)
  | [], sp => .ok sp
  | g :: gs, sp =>
    match dispatch k v g sp with
    | .error e => .error e
    | .ok sp' => applyGroups k v gs sp'

/-- The `for kind, and_group in version.depends_list.items()` loop of
`rank_once`. -/
def applyDeps (v : Nat) : List (Kind × List OrGroup) → St × Finset Nat →
    Except String (St × Finset Nat)
  | [], sp => .ok sp
  | (k, gs) :: rest, sp =>
    match applyGroups k v gs sp with
    | .error e => .error e
    | .ok sp' => applyDeps v rest sp'

/-- The ranking step for a single wave member (`rank_once`, lines 131-137):
if the version is unranked, assign the current generation and hint, expand all
of its dependency groups, and add its notify set to the pending set. -/
def rankVersion (db : DB) (hint : Option String) (v : Nat) (sp : St × Finset Nat) :
    Except String (St × Finset Nat) :=
  if sp.1.rank v = none then
    match applyDeps v (db.deps v)
        ({ sp.1 with rank := updF sp.1.rank v (some sp.1.gen),
                     hint := updF sp.1.hint v hint }, sp.2) with
    | .error e => .error e
    | .ok sp' => .ok (sp'.1, sp'.2 ∪ sp'.1.notify v)
  else .ok sp

/-- The `for version in versions` ranking loop of `rank_once`. -/
def rankWave (db : DB) (hint : Option String) : List Nat → St × Finset Nat →
    Except String (St × Finset Nat)
  | [], sp => .ok sp
  | v :: vs, sp =>
    match rankVersion db hint v sp with
    | .error e => .error e
    | .ok sp' => rankWave db hint vs sp'

/-- The ranking phase of `rank_once`: bump the generation counter, seed the
pending set with the wave, and rank each wave member. -/
def rankOncePhase (db : DB) (σ : St) (wave : List Nat) (hint : Option String) :
    Except String (St × Finset Nat) :=
  rankWave db hint wave ({ σ with gen := σ.gen + 1 }, wave.toFinset)

/-- The `while i < len(version.unresolved)` loop of `rank_once`, for one popped
version: decide for each group whether it is dropped (some target ranked),
resolved (a pick is made and collected), or kept pending. -/
def drainGroups (σ : St) : List (Bool × OrGroup) → List (Bool × OrGroup) × Finset Nat
  | [] => ([], ∅)
  | (b, g) :: rest =>
    let targets := expandOrGroup g
    let candidate := resolveOnce σ targets false
    let r := drainGroups σ rest
    if targets.any (fun t => truthy (σ.rank t)) then r
    else
      match candidate with
      | some c => (r.1, insert c r.2)
      | none => ((b, g) :: r.1, r.2)

/-- The `while self.__pending_depends` drain loop of `rank_once`, made explicit
over a pop order. -/
def drainList : St → List Nat → Finset Nat → St × Finset Nat
  | σ, [], acc => (σ, acc)
  | σ, v :: vs, acc =>
    let r := drainGroups σ (σ.unresolved v)
    drainList { σ with unresolved := updF σ.unresolved v r.1 } vs (acc ∪ r.2)

/-- Canonical enumeration of a pending set, in database order. -/
def canonOrder (db : DB) (s : Finset Nat) : List Nat :=
  db.vers.filter (fun v => decide (v ∈ s))

/-- `rank_once` with an explicit drain order for the pending set. -/
def rankOnceWith (db : DB) (σ : St) (wave : List Nat) (hint : Option String)
    (order : List Nat) : Except String (St × Finset Nat) :=
  match rankOncePhase db σ wave hint with
  | .error e => .error e
  | .ok sp => .ok (drainList sp.1 order ∅)

/-- The pending set produced by the ranking phase (∅ on a fatal error). -/
def pendingOf (db : DB) (σ : St) (wave : List Nat) (hint : Option String) : Finset Nat :=
  match rankOncePhase db σ wave hint with
  | .error _ => ∅
  | .ok sp => sp.2

/-- `rank_once` with the canonical drain order. -/
def rankOnce (db : DB) (σ : St) (wave : List Nat) (hint : Option String) :
    Except String (St × Finset Nat) :=
  match rankOncePhase db σ wave hint with
  | .error e => .error e
  | .ok sp => .ok (drainList sp.1 (canonOrder db sp.2) ∅)

/-- Stable insertion into a name-sorted list. -/
def insertByName (db : DB) (v : Nat) : List Nat → List Nat
  | [] => [v]
  | w :: ws =>
    if db.pname (db.parent v) ≤ db.pname (db.parent w) then v :: w :: ws
    else w :: insertByName db v ws

/-- `sorted(versions, key=lambda version: version.parent_pkg.name)`: the wave
set enumerated canonically and stably sorted by parent package name. -/
def sortWave (db : DB) (s : Finset Nat) : List Nat :=
  (canonOrder db s).foldr (insertByName db) []

/-- `Manager.rank`: the wave loop, fuel-indexed (`none` = fuel exhausted). -/
def rankLoop (db : DB) : Nat → St → Finset Nat → Option String →
    Option (Except String St)
  | 0, _, _, _ => none
  | fuel + 1, σ, wave, hint =>
    if wave = ∅ then some (.ok σ)
    else
      match rankOnce db σ (sortWave db wave) hint with
      | .error e => some (.error e)
      | .ok sp => rankLoop db fuel sp.1 sp.2 none

/-- `Manager.rank_by_name`. -/
def rankByName (db : DB) (fuel : Nat) (σ : St) (name : String) (hint : Option String) :
    Option (Except String St) :=
  match db.pkgByName name with
  | none => some (.error "KeyError")
  | some p =>
    match db.candOf p with
    | some c => rankLoop db fuel σ {c} hint
    | none =>
      match db.providesList p with
      | [w] => rankLoop db fuel σ {w} hint
      | _ => some (.error "can not rank package without versions")

/-- Sequencing of fuel-indexed fallible runs. -/
def obind (x : Option (Except String St)) (f : St → Option (Except String St)) :
    Option (Except String St) :=
  match x with
  | none => none
  | some (.error e) => some (.error e)
  | some (.ok σ) => f σ

/-- The group scan of one version during a `rank_unresolved` pass, over the
snapshot `list(version.unresolved)`: when no target of a group is (truthily)
ranked and the forced pick exists, the pick is ranked with hint `C` and the
pass is marked as having resolved something. -/
def ruGroups (db : DB) (fuel : Nat) : List (Bool × OrGroup) → St → Bool →
    Option (Except String (St × Bool))
  | [], σ, res => some (.ok (σ, res))
  | (_, g) :: rest, σ, res =>
    if (expandOrGroup g).any (fun t => truthy (σ.rank t)) = true then
      ruGroups db fuel rest σ res
    else
      match resolveOnce σ (expandOrGroup g) true with
      | none => ruGroups db fuel rest σ res
      | some c =>
        match rankLoop db fuel σ {c} (some "C") with
        | none => none
        | some (.error e) => some (.error e)
        | some (.ok σ') => ruGroups db fuel rest σ' true

/-- One pass of `rank_unresolved` over the version list. -/
def ruVersions (db : DB) (fuel : Nat) : List Nat → St → Bool →
    Option (Except String (St × Bool))
  | [], σ, res => some (.ok (σ, res))
  | v :: vs, σ, res =>
    if truthy (σ.rank v) = true ∧ σ.unresolved v ≠ [] then
      match ruGroups db fuel (σ.unresolved v) σ res with
      | none => none
      | some (.error e) => some (.error e)
      | some (.ok sr) => ruVersions db fuel vs sr.1 sr.2
    else ruVersions db fuel vs σ res

/-- `Manager.rank_unresolved`: repeat passes until one makes no forced pick. -/
def rankUnresolvedLoop (db : DB) (fuel : Nat) : Nat → St → Option (Except String St)
  | 0, _ => none
  | passes + 1, σ =>
    match ruVersions db fuel db.vers σ false with
    | none => none
    | some (.error e) => some (.error e)
    | some (.ok sr) =>
      if sr.2 = true then rankUnresolvedLoop db fuel passes sr.1
      else some (.ok sr.1)

/-- The initial resolution state established by `Manager.__init__` before any
ranking: candidate flags set, everything else defaulted. -/
def initSt (db : DB) : St where
  rank := fun _ => none
  hint := fun _ => none
  conflicts := fun _ => ∅
  unresolved := fun _ => []
  notify := fun _ => ∅
  replacedBy := fun _ => ∅
  cand := fun v => db.pkgs.any (fun p => db.candOf p == some v)
  gen := 0

/-- `Manager.__find_default_versions`: candidate versions at priority
required/important/standard whose architecture is not foreign. -/
def defaultSeeds (db : DB) : Finset Nat :=
  (db.pkgs.filterMap (fun p =>
    match db.candOf p with
    | none => none
    | some c =>
      if (db.prio c = 1 ∨ db.prio c = 2 ∨ db.prio c = 3) ∧ db.arch c ∉ db.foreign
      then some c else none)).toFinset

/-- `Manager.__init__`: build the initial state and rank the default seeds. -/
def runInit (db : DB) (fuel : Nat) : Option (Except String St) :=
  rankLoop db fuel (initSt db) (defaultSeeds db) (some "D")

/-- The run up to and including the wishlist phase of `__main__`. -/
def afterWishlist (db : DB) (fuel : Nat) (wishlist : List String) :
    Option (Except String St) :=
  wishlist.foldl (fun acc name => obind acc (fun σ => rankByName db fuel σ name (some "W")))
    (runInit db fuel)

/-- The Version→Package rank propagation loop of `dump_unresolved`
(lines 236-244): fatal when a second ranked version of a package is found. -/
def propagateAux (db : DB) (σ : St) :
    List Nat → (Nat → Option Nat) → (Nat → Option (Option String)) →
    Except String ((Nat → Option Nat) × (Nat → Option (Option String)))
  | [], pr, ph => .ok (pr, ph)
  | v :: vs, pr, ph =>
    match σ.rank v with
    | none => propagateAux db σ vs pr ph
    | some r =>
      match pr (db.parent v) with
      | none =>
        propagateAux db σ vs (updF pr (db.parent v) (some r))
          (updF ph (db.parent v) (some (σ.hint v)))
      | some _ => .error "unexpected ranked versions"

def propagate (db : DB) (σ : St) :
    Except String ((Nat → Option Nat) × (Nat → Option (Option String))) :=
  propagateAux db σ db.vers (fun _ => none) (fun _ => none)

/-- The data content of the `UNRESOLVED:` report lines of `dump_unresolved`:
for every still-unresolved group of a ranked version, the version and the
group (the `optional` flag is discarded by the printing code itself). -/
def dumpUnresolvedData (db : DB) (σ : St) : List (Nat × OrGroup) :=
  db.vers.foldr (fun v acc =>
    if truthy (σ.rank v) = true ∧ σ.unresolved v ≠ [] then
      ((σ.unresolved v).map (fun p => (v, p.2))) ++ acc
    else acc) []

/-- Projection of a fuel-indexed fallible run onto its successful state. -/
def getOkR : Option (Except String St) → Option St
  | some (.ok σ) => some σ
  | _ => none

/-- Projection of a `rank_once` outcome onto its successful state/result pair. -/
def getOkE : Except String (St × Finset Nat) → Option (St × Finset Nat)
  | .ok sp => some sp
  | .error _ => none

/-- Whether an outcome is the fatal-error case. -/
def isErr {α : Type} : Except String α → Bool
  | .error _ => true
  | .ok _ => false

/-! ### C1: the non-forced pick rule -/

/-- A state with a single unranked, conflict-free candidate version `5`,
used to instantiate hypotheses of the pick-rule theorems. -/
def σw : St where
  rank := fun _ => none
  hint := fun _ => none
  conflicts := fun _ => ∅
  unresolved := fun _ => []
  notify := fun _ => ∅
  replacedBy := fun _ => ∅
  cand := fun v => decide (v = 5)
  gen := 0

/-- C1.  For a dependency group examined during the drain of a wave whose
targets are all unranked, the non-forced pick `__resolve_once(T, False)`
returns the unique preferred target when `preferred` is a singleton, otherwise
the unique candidate target when `candidates` is a singleton, and otherwise no
pick — in which case the drain loop keeps the group pending. -/
theorem C1_resolve_once_nonforced (σ : St) (b : Bool) (g : OrGroup)
    (rest : List (Bool × OrGroup))
    (hnr : ∀ t ∈ expandOrGroup g, truthy (σ.rank t) = false) :
    (∀ x, preferredOf σ (expandOrGroup g) = [x] →
      resolveOnce σ (expandOrGroup g) false = some x) ∧
    ((preferredOf σ (expandOrGroup g)).length ≠ 1 →
      ∀ x, candidatesOf σ (expandOrGroup g) = [x] →
        resolveOnce σ (expandOrGroup g) false = some x) ∧
    ((preferredOf σ (expandOrGroup g)).length ≠ 1 →
      (candidatesOf σ (expandOrGroup g)).length ≠ 1 →
      resolveOnce σ (expandOrGroup g) false = none ∧
      drainGroups σ ((b, g) :: rest) =
        ((b, g) :: (drainGroups σ rest).1, (drainGroups σ rest).2)) := by
  have hany : (expandOrGroup g).any (fun t => truthy (σ.rank t)) = false := by
    simp only [List.any_eq_false]
    intro t ht
    simp [hnr t ht]
  refine ⟨?_, ?_, ?_⟩
  · intro x hx
    simp [resolveOnce, hx]
  · intro hP x hx
    simp [resolveOnce, hP, hx]
  · intro hP hC
    have hnone : resolveOnce σ (expandOrGroup g) false = none := by
      simp [resolveOnce, hP, hC]
    refine ⟨hnone, ?_⟩
    simp [drainGroups, hany, hnone]

/-- Witness for C1 at a concrete input: a group with the single unranked
candidate target `5`. -/
theorem C1_witness :
    (∀ t ∈ expandOrGroup [[5]], truthy (σw.rank t) = false) ∧
    resolveOnce σw (expandOrGroup [[5]]) false = some 5 :=
  ⟨by decide, (C1_resolve_once_nonforced σw true [[5]] [] (by decide)).1 5 (by decide)⟩

/-! ### C5: the forced (escalation) pick rule -/

/-- The database for the escalation-order counterexample: version `0`
(package `p`) depends on `1 | 2`; the parent of `2` (`aa`) sorts before the
parent of `1` (`zb`); all three versions are candidates. -/
def db5 : DB where
  vers := [0, 1, 2]
  pkgs := [10, 11, 12]
  parent := fun v => if v = 0 then 10 else if v = 1 then 11 else if v = 2 then 12 else 99
  pname := fun p => if p = 10 then "p" else if p = 11 then "zb" else if p = 12 then "aa" else ""
  deps := fun v => if v = 0 then [(.depends, [[[1], [2]]])] else []
  candOf := fun p =>
    if p = 10 then some 0 else if p = 11 then some 1 else if p = 12 then some 2 else none
  providesList := fun _ => []
  pkgByName := fun s => if s = "p" then some 10 else none
  prio := fun _ => 4
  arch := fun _ => "x"
  foreign := []

/-- Rank package `p` from the wishlist, then escalate. -/
def c5run : Option (Except String St) :=
  obind (rankByName db5 10 (initSt db5) "p" (some "W"))
    (fun σ => rankUnresolvedLoop db5 10 5 σ)

/-- C5, counterexample.  In the escalation of `db5`, the group `1 | 2` has two
preferred candidates; the version picked and ranked is `1`, the first in the
group's expansion order, although the package of `2` comes first in
package-name-sorted order (`aa < zb`).  So the forced pick is not the first
candidate in package-name-sorted order. -/
theorem C5_counterexample :
    (getOkR c5run).isSome = true ∧
    truthy (((getOkR c5run).getD (initSt db5)).rank 1) = true ∧
    ((getOkR c5run).getD (initSt db5)).rank 2 = none ∧
    db5.pname (db5.parent 2) < db5.pname (db5.parent 1) := by
  refine ⟨by decide, by decide, by decide, ?_⟩
  rw [String.lt_iff_toList_lt]
  decide

/-- C5, amended.  The forced pick `__resolve_once(T, True)` returns the first
element — in the group's expansion (first-seen) order, not in package-name
order — of the preferred sublist if it is non-empty, otherwise of the
candidate sublist if it is non-empty, and otherwise no pick. -/
theorem C5_forced_pick_first_in_expansion_order (σ : St) (targets : List Nat) :
    resolveOnce σ targets true =
      if preferredOf σ targets ≠ [] then (preferredOf σ targets).head?
      else if candidatesOf σ targets ≠ [] then (candidatesOf σ targets).head?
      else none := by
  rcases hP : preferredOf σ targets with _ | ⟨p, ps⟩ <;>
    rcases hC : candidatesOf σ targets with _ | ⟨c, cs⟩ <;>
      simp [resolveOnce, hP, hC]

/-! ### C2: Conflicts/Breaks groups -/

/-- Membership after inserting one element at one key of a set-valued map. -/
theorem mem_updF_insert (C : Nat → Finset Nat) (k a y x : Nat) :
    x ∈ updF C k (insert a (C k)) y ↔ x ∈ C y ∨ (y = k ∧ x = a) := by
  by_cases h : y = k
  · subst h
    simp [updF]
    tauto
  · simp [updF, h]

/-- Membership in the conflict sets after one target step of
`__resolve_conflicts`. -/
theorem addConflictTarget_conflicts_mem (v t y x : Nat) (sp : St × Finset Nat) :
    x ∈ (addConflictTarget v t sp).1.conflicts y ↔
      x ∈ sp.1.conflicts y ∨ (y = v ∧ x = t) ∨ (y = t ∧ x = v) := by
  show x ∈ updF (updF sp.1.conflicts v (insert t (sp.1.conflicts v))) t
      (insert v (updF sp.1.conflicts v (insert t (sp.1.conflicts v)) t)) y ↔ _
  rw [mem_updF_insert (updF sp.1.conflicts v (insert t (sp.1.conflicts v))) t v y x,
    mem_updF_insert sp.1.conflicts v t y x]
  tauto

theorem addConflictTarget_pending (v t : Nat) (sp : St × Finset Nat) :
    (addConflictTarget v t sp).2 =
      sp.2 ∪ (sp.1.notify t).filter (fun s => sp.1.unresolved s ≠ []) := rfl

/-- The conflict-target fold only modifies the `conflicts` field and the
pending set. -/
theorem confFold_proj (v : Nat) (l : List Nat) (sp : St × Finset Nat) :
    (l.foldl (fun sp t => addConflictTarget v t sp) sp).1.rank = sp.1.rank ∧
    (l.foldl (fun sp t => addConflictTarget v t sp) sp).1.hint = sp.1.hint ∧
    (l.foldl (fun sp t => addConflictTarget v t sp) sp).1.unresolved = sp.1.unresolved ∧
    (l.foldl (fun sp t => addConflictTarget v t sp) sp).1.notify = sp.1.notify ∧
    (l.foldl (fun sp t => addConflictTarget v t sp) sp).1.replacedBy = sp.1.replacedBy ∧
    (l.foldl (fun sp t => addConflictTarget v t sp) sp).1.cand = sp.1.cand ∧
    (l.foldl (fun sp t => addConflictTarget v t sp) sp).1.gen = sp.1.gen := by
  induction l generalizing sp with
  | nil => exact ⟨rfl, rfl, rfl, rfl, rfl, rfl, rfl⟩
  | cons t ts ih => exact ih (addConflictTarget v t sp)

/-- Conflict-set membership after the conflict-target fold: exactly the old
edges plus the symmetric edges between `v` and every listed target. -/
theorem confFold_conflicts_mem (v : Nat) (l : List Nat) (sp : St × Finset Nat)
    (y x : Nat) :
    x ∈ (l.foldl (fun sp t => addConflictTarget v t sp) sp).1.conflicts y ↔
      x ∈ sp.1.conflicts y ∨ (y = v ∧ x ∈ l) ∨ (x = v ∧ y ∈ l) := by
  induction l generalizing sp with
  | nil => simp
  | cons t ts ih =>
    rw [List.foldl_cons, ih, addConflictTarget_conflicts_mem]
    simp only [List.mem_cons]
    tauto

/-- Pending-set membership after the conflict-target fold: the old pending set
plus, for every listed target, its notify subscribers that still have a
non-empty unresolved list. -/
theorem confFold_pending_mem (v : Nat) (l : List Nat) (sp : St × Finset Nat)
    (x : Nat) :
    x ∈ (l.foldl (fun sp t => addConflictTarget v t sp) sp).2 ↔
      x ∈ sp.2 ∨ ∃ t ∈ l, x ∈ sp.1.notify t ∧ sp.1.unresolved x ≠ [] := by
  induction l generalizing sp with
  | nil => simp
  | cons t ts ih =>
    rw [List.foldl_cons, ih, addConflictTarget_pending]
    simp only [List.mem_cons, Finset.mem_union, Finset.mem_filter]
    constructor
    · rintro ((h | h) | ⟨u, hu, hn, hs⟩)
      · exact Or.inl h
      · exact Or.inr ⟨t, Or.inl rfl, h.1, h.2⟩
      · exact Or.inr ⟨u, Or.inr hu, hn, hs⟩
    · rintro (h | ⟨u, (rfl | hu), hn, hs⟩)
      · exact Or.inl (Or.inl h)
      · exact Or.inl (Or.inr ⟨hn, hs⟩)
      · exact Or.inr ⟨u, hu, hn, hs⟩

/-- C2, amended.  A Conflicts/Breaks group aborts fatally when it has a number
of dependency alternatives different from one (the check is on the alternative
count, not on the expansion size).  A single-alternative group records a
symmetric conflict edge between the ranked version and *every* version of its
expansion (there may be several), and re-queues every version in a target's
notify set that still has a non-empty unresolved list. -/
theorem C2_conflicts_group (v : Nat) (d : Dep) (σ : St) (p : Finset Nat) :
    dispatch .conflicts = resolveConflicts ∧
    dispatch .breaks = resolveConflicts ∧
    (∀ g : OrGroup, g.length ≠ 1 → resolveConflicts v g (σ, p) = .error "unexpected conflicts") ∧
    ∃ σ' p', resolveConflicts v [d] (σ, p) = .ok (σ', p') ∧
      (∀ t ∈ expandOrGroup [d], t ∈ σ'.conflicts v ∧ v ∈ σ'.conflicts t) ∧
      (∀ x, x ∈ p' ↔ x ∈ p ∨ ∃ t ∈ expandOrGroup [d], x ∈ σ.notify t ∧ σ.unresolved x ≠ []) ∧
      σ'.rank = σ.rank ∧ σ'.unresolved = σ.unresolved ∧ σ'.notify = σ.notify := by
  refine ⟨rfl, rfl, ?_, ?_⟩
  · intro g hg
    simp [resolveConflicts, hg]
  · refine ⟨((expandOrGroup [d]).foldl (fun sp t => addConflictTarget v t sp) (σ, p)).1,
      ((expandOrGroup [d]).foldl (fun sp t => addConflictTarget v t sp) (σ, p)).2,
      ?_, ?_, ?_, ?_, ?_, ?_⟩
    · simp [resolveConflicts]
    · intro t ht
      constructor
      · exact (confFold_conflicts_mem v (expandOrGroup [d]) (σ, p) v t).2 (Or.inr (Or.inl ⟨rfl, ht⟩))
      · exact (confFold_conflicts_mem v (expandOrGroup [d]) (σ, p) t v).2 (Or.inr (Or.inr ⟨rfl, ht⟩))
    · intro x
      exact confFold_pending_mem v (expandOrGroup [d]) (σ, p) x
    · exact (confFold_proj v (expandOrGroup [d]) (σ, p)).1
    · exact (confFold_proj v (expandOrGroup [d]) (σ, p)).2.2.1
    · exact (confFold_proj v (expandOrGroup [d]) (σ, p)).2.2.2.1

/-- The database for the multi-target Conflicts counterexample: version `0`
has a Conflicts group with a *single* dependency alternative whose expansion
contains the two versions `1` and `2` (a virtual target provided twice). -/
def db2 : DB where
  vers := [0, 1, 2]
  pkgs := [10, 11, 12]
  parent := fun v => if v = 0 then 10 else if v = 1 then 11 else if v = 2 then 12 else 99
  pname := fun p => if p = 10 then "a" else if p = 11 then "b" else if p = 12 then "c" else ""
  deps := fun v => if v = 0 then [(.conflicts, [[[1, 2]]])] else []
  candOf := fun p =>
    if p = 10 then some 0 else if p = 11 then some 1 else if p = 12 then some 2 else none
  providesList := fun _ => []
  pkgByName := fun s => if s = "a" then some 10 else none
  prio := fun _ => 4
  arch := fun _ => "x"
  foreign := []

/-- Ranking version `0` of `db2` (a complete `rank` call on the wave `{0}`). -/
def c2run : Option (Except String St) :=
  rankLoop db2 5 (initSt db2) {0} (some "W")

def c2st : St := (getOkR c2run).getD (initSt db2)

/-- C2, counterexample.  The Conflicts group of version `0` in `db2` expands
to the two targets `1` and `2`, yet ranking `0` does not abort: the run
succeeds and records symmetric conflict edges with both targets.  So a
Conflicts group expanding to more than one target is not a fatal error. -/
theorem C2_counterexample :
    (getOkR c2run).isSome = true ∧
    (expandOrGroup [[1, 2]]).length = 2 ∧
    1 ∈ c2st.conflicts 0 ∧ 2 ∈ c2st.conflicts 0 ∧
    0 ∈ c2st.conflicts 1 ∧ 0 ∈ c2st.conflicts 2 := by decide

/-- Witness for C2 at concrete inputs: a two-alternative group aborts. -/
theorem C2_witness :
    resolveConflicts 0 [[1, 2], [3]] (initSt db2, ∅) = .error "unexpected conflicts" :=
  (C2_conflicts_group 0 [1, 2] (initSt db2) ∅).2.2.1 [[1, 2], [3]] (by decide)

/-! ### C3: the single-rank-per-package invariant -/

/-- If some package rank is already set and a still-unprocessed version of
that package is ranked, the propagation loop aborts. -/
theorem propagateAux_error_of_set (db : DB) (σ : St) (l : List Nat)
    (pr : Nat → Option Nat) (ph : Nat → Option (Option String)) (p : Nat) (y : Nat)
    (hp : pr p = some y) (x : Nat) (hx : x ∈ l) (hpar : db.parent x = p)
    (hrx : σ.rank x ≠ none) :
    ∃ e, propagateAux db σ l pr ph = .error e := by
  induction l generalizing pr ph with
  | nil => cases hx
  | cons z zs ih =>
    rcases List.mem_cons.1 hx with rfl | hx'
    · rcases hr : σ.rank x with _ | r
      · exact absurd hr hrx
      · rw [show propagateAux db σ (x :: zs) pr ph =
            (match pr (db.parent x) with
             | none => propagateAux db σ zs (updF pr (db.parent x) (some r))
                 (updF ph (db.parent x) (some (σ.hint x)))
             | some _ => .error "unexpected ranked versions") by
            simp [propagateAux, hr]]
        rw [hpar, hp]
        exact ⟨_, rfl⟩
    · rcases hr : σ.rank z with _ | r
      · rw [show propagateAux db σ (z :: zs) pr ph = propagateAux db σ zs pr ph by
            simp [propagateAux, hr]]
        exact ih pr ph hp hx'
      · rcases hpz : pr (db.parent z) with _ | y'
        · rw [show propagateAux db σ (z :: zs) pr ph =
              propagateAux db σ zs (updF pr (db.parent z) (some r))
                (updF ph (db.parent z) (some (σ.hint z))) by
              simp [propagateAux, hr, hpz]]
          have hpp : db.parent z ≠ p := fun h => by rw [h, hp] at hpz; cases hpz
          exact ih _ _ (by rw [updF_other pr (db.parent z) p _ (Ne.symm hpp)] ; exact hp) hx'
        · rw [show propagateAux db σ (z :: zs) pr ph = .error "unexpected ranked versions" by
              simp [propagateAux, hr, hpz]]
          exact ⟨_, rfl⟩

/-- Two distinct ranked versions of one package in the scanned list make the
propagation loop abort. -/
theorem propagateAux_error_of_two (db : DB) (σ : St) (l : List Nat)
    (pr : Nat → Option Nat) (ph : Nat → Option (Option String)) (v w : Nat)
    (hv : v ∈ l) (hw : w ∈ l) (hne : v ≠ w) (hp : db.parent v = db.parent w)
    (hrv : σ.rank v ≠ none) (hrw : σ.rank w ≠ none) :
    ∃ e, propagateAux db σ l pr ph = .error e := by
  induction l generalizing pr ph with
  | nil => cases hv
  | cons z zs ih =>
    rcases hr : σ.rank z with _ | r
    · rw [show propagateAux db σ (z :: zs) pr ph = propagateAux db σ zs pr ph by
          simp [propagateAux, hr]]
      have hv' : v ∈ zs := by
        rcases List.mem_cons.1 hv with rfl | h
        · exact absurd hr hrv
        · exact h
      have hw' : w ∈ zs := by
        rcases List.mem_cons.1 hw with rfl | h
        · exact absurd hr hrw
        · exact h
      exact ih pr ph hv' hw'
    · rcases hpz : pr (db.parent z) with _ | y'
      · rw [show propagateAux db σ (z :: zs) pr ph =
            propagateAux db σ zs (updF pr (db.parent z) (some r))
              (updF ph (db.parent z) (some (σ.hint z))) by
            simp [propagateAux, hr, hpz]]
        rcases List.mem_cons.1 hv with rfl | hv'
        · have hw' : w ∈ zs := by
            rcases List.mem_cons.1 hw with rfl | h
            · exact absurd rfl hne
            · exact h
          exact propagateAux_error_of_set db σ zs _ _ (db.parent v) r
            (by rw [updF_same]) w hw' hp.symm hrw
        · rcases List.mem_cons.1 hw with rfl | hw'
          · exact propagateAux_error_of_set db σ zs _ _ (db.parent w) r
              (by rw [updF_same]) v hv' hp hrv
          · exact ih _ _ hv' hw'
      · rw [show propagateAux db σ (z :: zs) pr ph = .error "unexpected ranked versions" by
            simp [propagateAux, hr, hpz]]
        exact ⟨_, rfl⟩

/-- The database for the two-ranked-versions counterexample: package `10`
(`p`) has candidate version `1` at priority required and a second,
non-candidate version `2`; the virtual package `11` (`q`) has no versions and
is provided exactly once, by version `2`. -/
def db3 : DB where
  vers := [1, 2]
  pkgs := [10, 11]
  parent := fun v => if v = 1 then 10 else if v = 2 then 10 else 99
  pname := fun p => if p = 10 then "p" else if p = 11 then "q" else ""
  deps := fun _ => []
  candOf := fun p => if p = 10 then some 1 else none
  providesList := fun p => if p = 11 then [2] else []
  pkgByName := fun s => if s = "p" then some 10 else if s = "q" then some 11 else none
  prio := fun v => if v = 1 then 1 else 4
  arch := fun _ => "x"
  foreign := []

/-- The state after `Manager.__init__` (which ranks the default seed `1`) and
the wishlist entry `q` (which ranks the provider `2` of the virtual `q`). -/
def c3st : St := (getOkR (afterWishlist db3 10 ["q"])).getD (initSt db3)

/-- C3, counterexample.  After the wishlist phase of a run of `db3`, the two
distinct versions `1` and `2` of package `10` are both ranked — the wishlist
name `q` was resolved through the sole provides entry to a non-candidate
version whose package already had its candidate ranked by the default seeds.
The violation is only detected later: the propagation loop of
`dump_unresolved` then aborts.  So "at most one version of a package carries a
rank at any time during a run" does not hold mid-run. -/
theorem C3_counterexample :
    (getOkR (afterWishlist db3 10 ["q"])).isSome = true ∧
    c3st.rank 1 = some 1 ∧ c3st.rank 2 = some 2 ∧
    db3.parent 1 = db3.parent 2 ∧ (1 : Nat) ≠ 2 ∧
    isErr (propagate db3 c3st) = true := by decide

/-- C3, amended.  Two distinct simultaneously ranked versions of one package
can occur during a run; the invariant is enforced only when rank is propagated
from versions to packages, where the run aborts with a fatal error. -/
theorem C3_propagation_aborts (db : DB) (σ : St) (v w : Nat)
    (hv : v ∈ db.vers) (hw : w ∈ db.vers) (hne : v ≠ w)
    (hp : db.parent v = db.parent w) (hrv : σ.rank v ≠ none)
    (hrw : σ.rank w ≠ none) :
    ∃ e, propagate db σ = .error e :=
  propagateAux_error_of_two db σ db.vers _ _ v w hv hw hne hp hrv hrw

/-- Witness for C3 at the concrete run of `db3`. -/
theorem C3_witness : ∃ e, propagate db3 c3st = .error e :=
  C3_propagation_aborts db3 c3st 1 2 (by decide) (by decide) (by decide)
    (by decide) (by decide) (by decide)

/-! ### The drain loop: frame, congruence and characterization lemmas -/

theorem candidatesOf_congr (σ₁ σ₂ : St) (h : σ₁.cand = σ₂.cand) (t : List Nat) :
    candidatesOf σ₁ t = candidatesOf σ₂ t := by
  simp [candidatesOf, h]

theorem preferredOf_congr (σ₁ σ₂ : St) (hc : σ₁.cand = σ₂.cand)
    (hf : σ₁.conflicts = σ₂.conflicts) (t : List Nat) :
    preferredOf σ₁ t = preferredOf σ₂ t := by
  simp [preferredOf, hf, candidatesOf_congr σ₁ σ₂ hc]

/-- `__resolve_once` only reads the candidate flags and the conflict sets. -/
theorem resolveOnce_congr (σ₁ σ₂ : St) (hc : σ₁.cand = σ₂.cand)
    (hf : σ₁.conflicts = σ₂.conflicts) (t : List Nat) (u : Bool) :
    resolveOnce σ₁ t u = resolveOnce σ₂ t u := by
  simp [resolveOnce, preferredOf_congr σ₁ σ₂ hc hf, candidatesOf_congr σ₁ σ₂ hc]

/-- The group scan of the drain loop only reads ranks, conflict sets and
candidate flags. -/
theorem drainGroups_congr (σ₁ σ₂ : St) (hr : σ₁.rank = σ₂.rank)
    (hc : σ₁.cand = σ₂.cand) (hf : σ₁.conflicts = σ₂.conflicts)
    (l : List (Bool × OrGroup)) :
    drainGroups σ₁ l = drainGroups σ₂ l := by
  induction l with
  | nil => rfl
  | cons p rest ih =>
    cases p with
    | mk b g =>
      simp only [drainGroups, hr, resolveOnce_congr σ₁ σ₂ hc hf, ih]

/-- The drain loop never modifies any state field other than `unresolved`. -/
theorem drainList_proj (l : List Nat) (σ : St) (acc : Finset Nat) :
    (drainList σ l acc).1.rank = σ.rank ∧
    (drainList σ l acc).1.hint = σ.hint ∧
    (drainList σ l acc).1.conflicts = σ.conflicts ∧
    (drainList σ l acc).1.notify = σ.notify ∧
    (drainList σ l acc).1.replacedBy = σ.replacedBy ∧
    (drainList σ l acc).1.cand = σ.cand ∧
    (drainList σ l acc).1.gen = σ.gen := by
  induction l generalizing σ acc with
  | nil => exact ⟨rfl, rfl, rfl, rfl, rfl, rfl, rfl⟩
  | cons v vs ih => exact ih _ _

/-- After the drain, the unresolved list of a version is the drained form of
its original list when the version was popped, and unchanged otherwise. -/
theorem drainList_unresolved (l : List Nat) (σ : St) (acc : Finset Nat)
    (hnd : l.Nodup) (v : Nat) :
    (drainList σ l acc).1.unresolved v =
      if v ∈ l then (drainGroups σ (σ.unresolved v)).1 else σ.unresolved v := by
  induction l generalizing σ acc with
  | nil => simp [drainList]
  | cons w ws ih =>
    have hw : w ∉ ws := (List.nodup_cons.1 hnd).1
    have hnd' : ws.Nodup := (List.nodup_cons.1 hnd).2
    show (drainList { σ with unresolved := updF σ.unresolved w (drainGroups σ (σ.unresolved w)).1 }
        ws (acc ∪ (drainGroups σ (σ.unresolved w)).2)).1.unresolved v = _
    rw [ih _ _ hnd']
    by_cases hvw : v = w
    · subst hvw
      simp [hw, updF_same]
    · have hσ' : ({ σ with unresolved := updF σ.unresolved w (drainGroups σ (σ.unresolved w)).1 } : St).unresolved v = σ.unresolved v :=
        updF_other _ _ _ _ hvw
      rw [hσ']
      rw [drainGroups_congr
        { σ with unresolved := updF σ.unresolved w (drainGroups σ (σ.unresolved w)).1 } σ
        rfl rfl rfl]
      simp [List.mem_cons, hvw]

/-- Membership in the result set of the drain: the picks of the popped
versions' group scans, evaluated in the ranking-phase state. -/
theorem drainList_acc (l : List Nat) (σ : St) (acc : Finset Nat)
    (hnd : l.Nodup) (x : Nat) :
    x ∈ (drainList σ l acc).2 ↔
      x ∈ acc ∨ ∃ v ∈ l, x ∈ (drainGroups σ (σ.unresolved v)).2 := by
  induction l generalizing σ acc with
  | nil => simp [drainList]
  | cons w ws ih =>
    have hw : w ∉ ws := (List.nodup_cons.1 hnd).1
    have hnd' : ws.Nodup := (List.nodup_cons.1 hnd).2
    show x ∈ (drainList { σ with unresolved := updF σ.unresolved w (drainGroups σ (σ.unresolved w)).1 }
        ws (acc ∪ (drainGroups σ (σ.unresolved w)).2)).2 ↔ _
    rw [ih _ _ hnd']
    have hgr : ∀ v ∈ ws,
        (drainGroups { σ with unresolved := updF σ.unresolved w (drainGroups σ (σ.unresolved w)).1 }
          (({ σ with unresolved := updF σ.unresolved w (drainGroups σ (σ.unresolved w)).1 } : St).unresolved v)).2
        = (drainGroups σ (σ.unresolved v)).2 := by
      intro v hv
      have hvw : v ≠ w := fun h => hw (h ▸ hv)
      rw [show ({ σ with unresolved := updF σ.unresolved w (drainGroups σ (σ.unresolved w)).1 } : St).unresolved v = σ.unresolved v from updF_other _ _ _ _ hvw]
      rw [drainGroups_congr
        { σ with unresolved := updF σ.unresolved w (drainGroups σ (σ.unresolved w)).1 } σ
        rfl rfl rfl]
    constructor
    · rintro (h | ⟨v, hv, hx⟩)
      · rcases Finset.mem_union.1 h with h | h
        · exact Or.inl h
        · exact Or.inr ⟨w, List.mem_cons_self _ _, h⟩
      · exact Or.inr ⟨v, List.mem_cons_of_mem _ hv, (hgr v hv) ▸ hx⟩
    · rintro (h | ⟨v, hv, hx⟩)
      · exact Or.inl (Finset.mem_union_left _ h)
      · rcases List.mem_cons.1 hv with rfl | hv'
        · exact Or.inl (Finset.mem_union_right _ hx)
        · exact Or.inr ⟨v, hv', (hgr v hv').symm ▸ hx⟩

/-- Re-scanning an already drained unresolved list changes nothing and yields
no further picks. -/
theorem drainGroups_idem (σ : St) (l : List (Bool × OrGroup)) :
    drainGroups σ (drainGroups σ l).1 = ((drainGroups σ l).1, ∅) := by
  induction l with
  | nil => rfl
  | cons p rest ih =>
    cases p with
    | mk b g =>
      by_cases hany : (expandOrGroup g).any (fun t => truthy (σ.rank t)) = true
      · simp [drainGroups, hany, ih]
      · rcases hc : resolveOnce σ (expandOrGroup g) false with _ | c
        · simp only [drainGroups, hany, hc]
          simp only [Bool.false_eq_true, if_false]
          simp [drainGroups, hany, hc, ih]
        · simp [drainGroups, hany, hc, ih]

/-! ### C4: drain-order independence -/

/-- A possible pop order for a pending set: an enumeration of exactly its
elements, each once. -/
def ValidOrder (s : Finset Nat) (l : List Nat) : Prop :=
  l.Nodup ∧ l.toFinset = s

/-- C4.  The outcome of `rank_once` — the whole post-state and the result set
that seeds the next wave, hence every rank and hint ever assigned and the
report computed from the final state — does not depend on the arbitrary order
in which `set.pop()` drains the intra-wave pending set. -/
theorem C4_deterministic_drain (db : DB) (σ : St) (wave : List Nat)
    (hint : Option String) (o₁ o₂ : List Nat)
    (h₁ : ValidOrder (pendingOf db σ wave hint) o₁)
    (h₂ : ValidOrder (pendingOf db σ wave hint) o₂) :
    rankOnceWith db σ wave hint o₁ = rankOnceWith db σ wave hint o₂ := by
  rcases hph : rankOncePhase db σ wave hint with e | sp
  · simp [rankOnceWith, hph]
  · have hpend : pendingOf db σ wave hint = sp.2 := by simp [pendingOf, hph]
    rw [hpend] at h₁ h₂
    have hmem : ∀ v, v ∈ o₁ ↔ v ∈ o₂ := by
      intro v
      rw [← List.mem_toFinset, ← List.mem_toFinset, h₁.2, h₂.2]
    simp only [rankOnceWith, hph]
    congr 1
    refine Prod.ext ?_ ?_
    · apply St.ext
      · rw [(drainList_proj o₁ sp.1 ∅).1, (drainList_proj o₂ sp.1 ∅).1]
      · rw [(drainList_proj o₁ sp.1 ∅).2.1, (drainList_proj o₂ sp.1 ∅).2.1]
      · rw [(drainList_proj o₁ sp.1 ∅).2.2.1, (drainList_proj o₂ sp.1 ∅).2.2.1]
      · funext v
        rw [drainList_unresolved o₁ sp.1 ∅ h₁.1 v, drainList_unresolved o₂ sp.1 ∅ h₂.1 v,
          if_congr (hmem v) rfl rfl]
      · rw [(drainList_proj o₁ sp.1 ∅).2.2.2.1, (drainList_proj o₂ sp.1 ∅).2.2.2.1]
      · rw [(drainList_proj o₁ sp.1 ∅).2.2.2.2.1, (drainList_proj o₂ sp.1 ∅).2.2.2.2.1]
      · rw [(drainList_proj o₁ sp.1 ∅).2.2.2.2.2.1, (drainList_proj o₂ sp.1 ∅).2.2.2.2.2.1]
      · rw [(drainList_proj o₁ sp.1 ∅).2.2.2.2.2.2, (drainList_proj o₂ sp.1 ∅).2.2.2.2.2.2]
    · apply Finset.ext
      intro x
      rw [drainList_acc o₁ sp.1 ∅ h₁.1 x, drainList_acc o₂ sp.1 ∅ h₂.1 x]
      constructor
      · rintro (h | ⟨v, hv, hx⟩)
        · exact Or.inl h
        · exact Or.inr ⟨v, (hmem v).1 hv, hx⟩
      · rintro (h | ⟨v, hv, hx⟩)
        · exact Or.inl h
        · exact Or.inr ⟨v, (hmem v).2 hv, hx⟩

/-- Witness for C4: two different pop orders of a two-element pending set on
`db5` produce identical outcomes. -/
theorem C4_witness :
    ValidOrder (pendingOf db5 (initSt db5) [1, 2] (some "W")) [1, 2] ∧
    ValidOrder (pendingOf db5 (initSt db5) [1, 2] (some "W")) [2, 1] ∧
    rankOnceWith db5 (initSt db5) [1, 2] (some "W") [1, 2] =
      rankOnceWith db5 (initSt db5) [1, 2] (some "W") [2, 1] :=
  ⟨by constructor <;> decide, by constructor <;> decide,
    C4_deterministic_drain db5 (initSt db5) [1, 2] (some "W") [1, 2] [2, 1]
      ⟨by decide, by decide⟩ ⟨by decide, by decide⟩⟩

/-! ### The ranking phase: frame lemmas -/

@[simp] theorem updF_self {α : Type} (f : Nat → α) (k : Nat) :
    updF f k (f k) = f := by
  funext x
  by_cases h : x = k
  · subst h
    simp [updF]
  · simp [updF, h]

/-- The notify-registration fold of `__resolve_depends_and_recommends` only
modifies the `notify` field. -/
theorem notifyFold_proj (v : Nat) (l : List Nat) (σ : St) :
    (l.foldl (fun σ t => { σ with notify := updF σ.notify t (insert v (σ.notify t)) }) σ).rank = σ.rank ∧
    (l.foldl (fun σ t => { σ with notify := updF σ.notify t (insert v (σ.notify t)) }) σ).hint = σ.hint ∧
    (l.foldl (fun σ t => { σ with notify := updF σ.notify t (insert v (σ.notify t)) }) σ).conflicts = σ.conflicts ∧
    (l.foldl (fun σ t => { σ with notify := updF σ.notify t (insert v (σ.notify t)) }) σ).unresolved = σ.unresolved ∧
    (l.foldl (fun σ t => { σ with notify := updF σ.notify t (insert v (σ.notify t)) }) σ).replacedBy = σ.replacedBy ∧
    (l.foldl (fun σ t => { σ with notify := updF σ.notify t (insert v (σ.notify t)) }) σ).cand = σ.cand ∧
    (l.foldl (fun σ t => { σ with notify := updF σ.notify t (insert v (σ.notify t)) }) σ).gen = σ.gen := by
  induction l generalizing σ with
  | nil => exact ⟨rfl, rfl, rfl, rfl, rfl, rfl, rfl⟩
  | cons t ts ih => exact ih _

/-- The replaces fold only modifies the `replacedBy` field. -/
theorem replFold_proj (v : Nat) (l : List Nat) (sp : St × Finset Nat) :
    (l.foldl (fun sp t => (({ sp.1 with replacedBy := updF sp.1.replacedBy t (insert v (sp.1.replacedBy t)) } : St), sp.2)) sp).1.rank = sp.1.rank ∧
    (l.foldl (fun sp t => (({ sp.1 with replacedBy := updF sp.1.replacedBy t (insert v (sp.1.replacedBy t)) } : St), sp.2)) sp).1.hint = sp.1.hint ∧
    (l.foldl (fun sp t => (({ sp.1 with replacedBy := updF sp.1.replacedBy t (insert v (sp.1.replacedBy t)) } : St), sp.2)) sp).1.conflicts = sp.1.conflicts ∧
    (l.foldl (fun sp t => (({ sp.1 with replacedBy := updF sp.1.replacedBy t (insert v (sp.1.replacedBy t)) } : St), sp.2)) sp).1.unresolved = sp.1.unresolved ∧
    (l.foldl (fun sp t => (({ sp.1 with replacedBy := updF sp.1.replacedBy t (insert v (sp.1.replacedBy t)) } : St), sp.2)) sp).1.notify = sp.1.notify ∧
    (l.foldl (fun sp t => (({ sp.1 with replacedBy := updF sp.1.replacedBy t (insert v (sp.1.replacedBy t)) } : St), sp.2)) sp).1.cand = sp.1.cand ∧
    (l.foldl (fun sp t => (({ sp.1 with replacedBy := updF sp.1.replacedBy t (insert v (sp.1.replacedBy t)) } : St), sp.2)) sp).1.gen = sp.1.gen := by
  induction l generalizing sp with
  | nil => exact ⟨rfl, rfl, rfl, rfl, rfl, rfl, rfl⟩
  | cons t ts ih => exact ih _

/-- No dependency-kind handler modifies the rank map, the hint map, the
candidate flags or the generation counter. -/
theorem dispatch_ok_proj (k : Kind) (v : Nat) (g : OrGroup) (sp sp' : St × Finset Nat)
    (h : dispatch k v g sp = .ok sp') :
    sp'.1.rank = sp.1.rank ∧ sp'.1.hint = sp.1.hint ∧
    sp'.1.cand = sp.1.cand ∧ sp'.1.gen = sp.1.gen := by
  cases k
  case conflicts | breaks =>
    by_cases hg : g.length ≠ 1
    · simp [dispatch, resolveConflicts, hg] at h
    · simp only [dispatch, resolveConflicts, hg, if_false] at h
      cases h
      exact ⟨(confFold_proj v _ sp).1, (confFold_proj v _ sp).2.1,
        (confFold_proj v _ sp).2.2.2.2.2.1, (confFold_proj v _ sp).2.2.2.2.2.2⟩
  case replaces =>
    by_cases hg : g.length ≠ 1
    · simp [dispatch, resolveReplaces, hg] at h
    · simp only [dispatch, resolveReplaces, hg, if_false] at h
      cases h
      exact ⟨(replFold_proj v _ sp).1, (replFold_proj v _ sp).2.1,
        (replFold_proj v _ sp).2.2.2.2.2.1, (replFold_proj v _ sp).2.2.2.2.2.2⟩
  case depends | preDepends | recommends =>
    simp only [dispatch, resolveDepends, resolveRecommends, resolveDependsAndRecommends,
      Except.ok.injEq] at h
    all_goals {
      subst h
      refine ⟨?_, ?_, ?_, ?_⟩ <;>
        simp [registerGroup, (notifyFold_proj v (expandOrGroup g) _).1,
          (notifyFold_proj v (expandOrGroup g) _).2.1,
          (notifyFold_proj v (expandOrGroup g) _).2.2.2.2.2.1,
          (notifyFold_proj v (expandOrGroup g) _).2.2.2.2.2.2]
    }
  case enhances | obsoletes | suggests =>
    simp only [dispatch, Except.ok.injEq] at h
    all_goals (subst h; exact ⟨rfl, rfl, rfl, rfl⟩)

theorem applyGroups_ok_proj (k : Kind) (v : Nat) (gs : List OrGroup)
    (sp sp' : St × Finset Nat) (h : applyGroups k v gs sp = .ok sp') :
    sp'.1.rank = sp.1.rank ∧ sp'.1.hint = sp.1.hint ∧
    sp'.1.cand = sp.1.cand ∧ sp'.1.gen = sp.1.gen := by
  induction gs generalizing sp with
  | nil =>
    cases h
    exact ⟨rfl, rfl, rfl, rfl⟩
  | cons g gs ih =>
    rcases hd : dispatch k v g sp with e | sp₁
    · rw [show applyGroups k v (g :: gs) sp = .error e by simp [applyGroups, hd]] at h
      cases h
    · rw [show applyGroups k v (g :: gs) sp = applyGroups k v gs sp₁ by
        simp [applyGroups, hd]] at h
      obtain ⟨h1, h2, h3, h4⟩ := ih sp₁ h
      obtain ⟨g1, g2, g3, g4⟩ := dispatch_ok_proj k v g sp sp₁ hd
      exact ⟨h1.trans g1, h2.trans g2, h3.trans g3, h4.trans g4⟩

theorem applyDeps_ok_proj (v : Nat) (ds : List (Kind × List OrGroup))
    (sp sp' : St × Finset Nat) (h : applyDeps v ds sp = .ok sp') :
    sp'.1.rank = sp.1.rank ∧ sp'.1.hint = sp.1.hint ∧
    sp'.1.cand = sp.1.cand ∧ sp'.1.gen = sp.1.gen := by
  induction ds generalizing sp with
  | nil =>
    cases h
    exact ⟨rfl, rfl, rfl, rfl⟩
  | cons d ds ih =>
    rcases hd : applyGroups d.1 v d.2 sp with e | sp₁
    · rw [show applyDeps v (d :: ds) sp = .error e by
        cases d; simp [applyDeps, hd]] at h
      cases h
    · rw [show applyDeps v (d :: ds) sp = applyDeps v ds sp₁ by
        cases d; simp_all [applyDeps]] at h
      obtain ⟨h1, h2, h3, h4⟩ := ih sp₁ h
      obtain ⟨g1, g2, g3, g4⟩ := applyGroups_ok_proj d.1 v d.2 sp sp₁ hd
      exact ⟨h1.trans g1, h2.trans g2, h3.trans g3, h4.trans g4⟩

/-- The effect of ranking one wave member on the rank map: either the version
was already ranked (no change at all to the rank map), or its rank becomes the
current generation; no other version's rank changes, and the generation
counter, candidate flags are unchanged. -/
theorem rankVersion_ok_rank (db : DB) (hint : Option String) (v : Nat)
    (sp sp' : St × Finset Nat) (h : rankVersion db hint v sp = .ok sp') :
    (sp'.1.rank = sp.1.rank ∨
      (sp.1.rank v = none ∧ sp'.1.rank = updF sp.1.rank v (some sp.1.gen))) ∧
    sp'.1.gen = sp.1.gen ∧ sp'.1.cand = sp.1.cand := by
  by_cases hr : sp.1.rank v = none
  · rw [show rankVersion db hint v sp =
        (match applyDeps v (db.deps v)
            ({ sp.1 with rank := updF sp.1.rank v (some sp.1.gen),
                         hint := updF sp.1.hint v hint }, sp.2) with
         | .error e => .error e
         | .ok sp' => .ok (sp'.1, sp'.2 ∪ sp'.1.notify v)) by
      simp [rankVersion, hr]] at h
    rcases hd : applyDeps v (db.deps v)
        ({ sp.1 with rank := updF sp.1.rank v (some sp.1.gen),
                     hint := updF sp.1.hint v hint }, sp.2) with e | sp₁
    · rw [hd] at h
      cases h
    · rw [hd] at h
      cases h
      obtain ⟨h1, _, h3, h4⟩ := applyDeps_ok_proj v (db.deps v) _ sp₁ hd
      exact ⟨Or.inr ⟨hr, h1⟩, h4, h3⟩
  · rw [show rankVersion db hint v sp = .ok sp by simp [rankVersion, hr]] at h
    cases h
    exact ⟨Or.inl rfl, rfl, rfl⟩

/-- Through a whole wave's ranking loop, an already-set rank is never changed,
a rank is only ever set to the current generation, and the generation counter
and candidate flags are unchanged. -/
theorem rankWave_ok_rank (db : DB) (hint : Option String) (wave : List Nat)
    (sp sp' : St × Finset Nat) (h : rankWave db hint wave sp = .ok sp') :
    (∀ w r, sp.1.rank w = some r → sp'.1.rank w = some r) ∧
    (∀ w, sp'.1.rank w = sp.1.rank w ∨ sp'.1.rank w = some sp.1.gen) ∧
    sp'.1.gen = sp.1.gen ∧ sp'.1.cand = sp.1.cand := by
  induction wave generalizing sp with
  | nil =>
    cases h
    exact ⟨fun w r hw => hw, fun w => Or.inl rfl, rfl, rfl⟩
  | cons v vs ih =>
    rcases hv : rankVersion db hint v sp with e | sp₁
    · rw [show rankWave db hint (v :: vs) sp = .error e by simp [rankWave, hv]] at h
      cases h
    · rw [show rankWave db hint (v :: vs) sp = rankWave db hint vs sp₁ by
        simp [rankWave, hv]] at h
      obtain ⟨i1, i2, i3, i4⟩ := ih sp₁ h
      obtain ⟨c1, c3, c4⟩ := rankVersion_ok_rank db hint v sp sp₁ hv
      refine ⟨?_, ?_, i3.trans c3, i4.trans c4⟩
      · intro w r hw
        apply i1
        rcases c1 with he | ⟨hn, he⟩
        · rw [he]
          exact hw
        · rw [he]
          by_cases hwv : w = v
          · rw [hwv, hn] at hw
            cases hw
          · rw [updF_other _ _ _ _ hwv]
            exact hw
      · intro w
        rcases i2 w with h2 | h2
        · rw [h2]
          rcases c1 with he | ⟨hn, he⟩
          · rw [he]
            exact Or.inl rfl
          · rw [he]
            by_cases hwv : w = v
            · subst hwv
              rw [updF_same]
              exact Or.inr rfl
            · rw [updF_other _ _ _ _ hwv]
              exact Or.inl rfl
        · rw [h2, c3]
          exact Or.inr rfl

/-- Filtering a duplicate-free list for one element. -/
theorem filter_eq_singleton (l : List Nat) (hnd : l.Nodup) (v : Nat) :
    l.filter (fun x => decide (x = v)) = if v ∈ l then [v] else [] := by
  induction l with
  | nil => simp
  | cons a as ih =>
    have hnd' : as.Nodup := (List.nodup_cons.1 hnd).2
    have ha : a ∉ as := (List.nodup_cons.1 hnd).1
    by_cases hav : a = v
    · subst hav
      simp [List.filter_cons, ih hnd', ha]
    · have hva : ¬ v = a := fun h => hav h.symm
      simp [List.filter_cons, hav, ih hnd', List.mem_cons, hva]

/-- If `db.vers` has no duplicates, the canonical enumeration of a singleton
pending set is the singleton list (or empty when the version is unknown). -/
theorem canonOrder_singleton (db : DB) (hnd : db.vers.Nodup) (v : Nat) :
    canonOrder db {v} = if v ∈ db.vers then [v] else [] := by
  have hpred : (fun x => decide (x ∈ ({v} : Finset Nat))) = fun x => decide (x = v) := by
    funext x
    simp
  rw [canonOrder, hpred]
  exact filter_eq_singleton db.vers hnd v

/-! ### C6: rank immutability and idempotent re-seeding -/

/-- C6.  (i) A rank, once set, is never modified by a later `rank_once`.
(ii) Passing an already-ranked version `v` to `rank` again is a no-op for the
whole state apart from the generation counter, provided `v`'s pending groups
are drain-stable: `v`'s rank, hint, unresolved list and notify registrations
are unchanged, and its dependency groups are not expanded a second time.
(iii) Drain-stability of every popped version is re-established by every
drain, so (ii)'s proviso holds for every ranked version between top-level
`rank` calls. -/
theorem C6_rank_immutable_reseed_noop (db : DB) :
    (∀ σ wave hint sp w r, σ.rank w = some r →
      rankOnce db σ wave hint = .ok sp → sp.1.rank w = some r) ∧
    (∀ σ v r hint, db.vers.Nodup → σ.rank v = some r →
      drainGroups σ (σ.unresolved v) = (σ.unresolved v, ∅) →
      rankOnce db σ [v] hint = .ok ({ σ with gen := σ.gen + 1 }, ∅)) ∧
    (∀ σ l acc v, l.Nodup → v ∈ l →
      drainGroups (drainList σ l acc).1 ((drainList σ l acc).1.unresolved v) =
        ((drainList σ l acc).1.unresolved v, ∅)) := by
  refine ⟨?_, ?_, ?_⟩
  · intro σ wave hint sp w r hw h
    rcases hph : rankOncePhase db σ wave hint with e | sp₁
    · rw [show rankOnce db σ wave hint = .error e by simp [rankOnce, hph]] at h
      cases h
    · rw [show rankOnce db σ wave hint = .ok (drainList sp₁.1 (canonOrder db sp₁.2) ∅) by
        simp [rankOnce, hph]] at h
      cases h
      rw [(drainList_proj (canonOrder db sp₁.2) sp₁.1 ∅).1]
      exact (rankWave_ok_rank db hint wave _ sp₁ hph).1 w r hw
  · intro σ v r hint hnd hr hstable
    have h1 : rankVersion db hint v ({ σ with gen := σ.gen + 1 }, ({v} : Finset Nat)) =
        .ok ({ σ with gen := σ.gen + 1 }, ({v} : Finset Nat)) := by
      simp [rankVersion, hr]
    have hph : rankOncePhase db σ [v] hint =
        .ok ({ σ with gen := σ.gen + 1 }, ({v} : Finset Nat)) := by
      simp [rankOncePhase, rankWave, h1]
    rw [show rankOnce db σ [v] hint =
        .ok (drainList ({ σ with gen := σ.gen + 1 }) (canonOrder db ({v} : Finset Nat)) ∅) by
      simp [rankOnce, hph]]
    rw [canonOrder_singleton db hnd v]
    have hdg : drainGroups ({ σ with gen := σ.gen + 1 } : St)
        (({ σ with gen := σ.gen + 1 } : St).unresolved v) = (σ.unresolved v, ∅) := by
      rw [drainGroups_congr ({ σ with gen := σ.gen + 1 }) σ rfl rfl rfl]
      exact hstable
    by_cases hv : v ∈ db.vers
    · rw [if_pos hv]
      show Except.ok (drainList { ({ σ with gen := σ.gen + 1 } : St) with
          unresolved := updF σ.unresolved v
            (drainGroups ({ σ with gen := σ.gen + 1 } : St) (σ.unresolved v)).1 }
          [] (∅ ∪ (drainGroups ({ σ with gen := σ.gen + 1 } : St) (σ.unresolved v)).2)) = _
      rw [show drainGroups ({ σ with gen := σ.gen + 1 } : St) (σ.unresolved v) =
          (σ.unresolved v, ∅) from hdg]
      simp [drainList]
    · rw [if_neg hv]
      rfl
  · intro σ l acc v hnd hv
    rw [drainList_unresolved l σ acc hnd v, if_pos hv]
    rw [drainGroups_congr (drainList σ l acc).1 σ (drainList_proj l σ acc).1
      (drainList_proj l σ acc).2.2.2.2.2.1 (drainList_proj l σ acc).2.2.1]
    exact drainGroups_idem σ (σ.unresolved v)

/-! ### C7: the escalation fixpoint -/

/-- Once a `rank_unresolved` group scan starts with the resolved flag set, the
flag stays set. -/
theorem ruGroups_true_mono (db : DB) (fuel : Nat) (l : List (Bool × OrGroup))
    (σ σ' : St) (res' : Bool)
    (h : ruGroups db fuel l σ true = some (.ok (σ', res'))) : res' = true := by
  induction l generalizing σ with
  | nil =>
    cases h
    rfl
  | cons p rest ih =>
    cases p with
    | mk b g =>
      by_cases hany : (expandOrGroup g).any (fun t => truthy (σ.rank t)) = true
      · rw [show ruGroups db fuel ((b, g) :: rest) σ true = ruGroups db fuel rest σ true by
          simp [ruGroups, hany]] at h
        exact ih σ h
      · rcases hc : resolveOnce σ (expandOrGroup g) true with _ | c
        · rw [show ruGroups db fuel ((b, g) :: rest) σ true = ruGroups db fuel rest σ true by
            simp [ruGroups, hany, hc]] at h
          exact ih σ h
        · rcases hrl : rankLoop db fuel σ {c} (some "C") with _ | e | σ₁
          · rw [show ruGroups db fuel ((b, g) :: rest) σ true = none by
              simp [ruGroups, hany, hc, hrl]] at h
            cases h
          · rw [show ruGroups db fuel ((b, g) :: rest) σ true = some (.error e) by
              simp [ruGroups, hany, hc, hrl]] at h
            cases h
          · rw [show ruGroups db fuel ((b, g) :: rest) σ true = ruGroups db fuel rest σ₁ true by
              simp [ruGroups, hany, hc, hrl]] at h
            exact ih σ₁ h

/-- A group scan that returns the resolved flag unset forced no pick: the
state is unchanged, the flag was already unset and the scan does not depend on
the fuel. -/
theorem ruGroups_ok_false (db : DB) (fuel : Nat) (l : List (Bool × OrGroup))
    (σ σ' : St) (res : Bool)
    (h : ruGroups db fuel l σ res = some (.ok (σ', false))) :
    σ' = σ ∧ res = false ∧ ∀ fuel', ruGroups db fuel' l σ res = some (.ok (σ, false)) := by
  induction l generalizing σ res with
  | nil =>
    obtain ⟨rfl, rfl⟩ : σ = σ' ∧ res = false := by
      cases h
      exact ⟨rfl, rfl⟩
    exact ⟨rfl, rfl, fun fuel' => rfl⟩
  | cons p rest ih =>
    cases p with
    | mk b g =>
      by_cases hany : (expandOrGroup g).any (fun t => truthy (σ.rank t)) = true
      · rw [show ruGroups db fuel ((b, g) :: rest) σ res = ruGroups db fuel rest σ res by
          simp [ruGroups, hany]] at h
        obtain ⟨h1, h2, h3⟩ := ih σ res h
        refine ⟨h1, h2, fun fuel' => ?_⟩
        rw [show ruGroups db fuel' ((b, g) :: rest) σ res = ruGroups db fuel' rest σ res by
          simp [ruGroups, hany]]
        exact h3 fuel'
      · rcases hc : resolveOnce σ (expandOrGroup g) true with _ | c
        · rw [show ruGroups db fuel ((b, g) :: rest) σ res = ruGroups db fuel rest σ res by
            simp [ruGroups, hany, hc]] at h
          obtain ⟨h1, h2, h3⟩ := ih σ res h
          refine ⟨h1, h2, fun fuel' => ?_⟩
          rw [show ruGroups db fuel' ((b, g) :: rest) σ res = ruGroups db fuel' rest σ res by
            simp [ruGroups, hany, hc]]
          exact h3 fuel'
        · rcases hrl : rankLoop db fuel σ {c} (some "C") with _ | e | σ₁
          · rw [show ruGroups db fuel ((b, g) :: rest) σ res = none by
              simp [ruGroups, hany, hc, hrl]] at h
            cases h
          · rw [show ruGroups db fuel ((b, g) :: rest) σ res = some (.error e) by
              simp [ruGroups, hany, hc, hrl]] at h
            cases h
          · rw [show ruGroups db fuel ((b, g) :: rest) σ res = ruGroups db fuel rest σ₁ true by
              simp [ruGroups, hany, hc, hrl]] at h
            cases ruGroups_true_mono db fuel rest σ₁ σ' false h

/-- A whole `rank_unresolved` pass that reports nothing resolved changes
nothing, and its outcome does not depend on the fuel. -/
theorem ruVersions_ok_false (db : DB) (fuel : Nat) (l : List Nat)
    (σ σ' : St) (res : Bool)
    (h : ruVersions db fuel l σ res = some (.ok (σ', false))) :
    σ' = σ ∧ res = false ∧ ∀ fuel', ruVersions db fuel' l σ res = some (.ok (σ, false)) := by
  induction l generalizing σ res with
  | nil =>
    obtain ⟨rfl, rfl⟩ : σ = σ' ∧ res = false := by
      cases h
      exact ⟨rfl, rfl⟩
    exact ⟨rfl, rfl, fun fuel' => rfl⟩
  | cons v vs ih =>
    by_cases hcond : truthy (σ.rank v) = true ∧ σ.unresolved v ≠ []
    · rcases hg : ruGroups db fuel (σ.unresolved v) σ res with _ | e | sr
      · rw [show ruVersions db fuel (v :: vs) σ res = none by
          simp [ruVersions, hcond, hg]] at h
        cases h
      · rw [show ruVersions db fuel (v :: vs) σ res = some (.error e) by
          simp [ruVersions, hcond, hg]] at h
        cases h
      · obtain ⟨σ₁, r₁⟩ := sr
        rw [show ruVersions db fuel (v :: vs) σ res = ruVersions db fuel vs σ₁ r₁ by
          simp [ruVersions, hcond, hg]] at h
        obtain ⟨h1, h2, h3⟩ := ih σ₁ r₁ h
        subst h2
        obtain ⟨g1, g2, g3⟩ := ruGroups_ok_false db fuel (σ.unresolved v) σ σ₁ res hg
        subst g1
        refine ⟨h1, g2, fun fuel' => ?_⟩
        rw [show ruVersions db fuel' (v :: vs) σ₁ res = ruVersions db fuel' vs σ₁ false by
          simp [ruVersions, hcond, g3 fuel']]
        exact h3 fuel'
    · rw [show ruVersions db fuel (v :: vs) σ res = ruVersions db fuel vs σ res by
        simp [ruVersions, hcond]] at h
      obtain ⟨h1, h2, h3⟩ := ih σ res h
      refine ⟨h1, h2, fun fuel' => ?_⟩
      rw [show ruVersions db fuel' (v :: vs) σ res = ruVersions db fuel' vs σ res by
        simp [ruVersions, hcond]]
      exact h3 fuel'

/-- After `rank_unresolved` returns, a further pass over the versions makes no
forced pick and leaves the state unchanged, whatever the fuel. -/
theorem rankUnresolvedLoop_ok_stable (db : DB) (fuel n : Nat) (σ σ' : St)
    (h : rankUnresolvedLoop db fuel n σ = some (.ok σ')) :
    ∀ fuel', ruVersions db fuel' db.vers σ' false = some (.ok (σ', false)) := by
  induction n generalizing σ with
  | zero => cases h
  | succ p ih =>
    rcases hv : ruVersions db fuel db.vers σ false with _ | e | sr
    · rw [show rankUnresolvedLoop db fuel (p + 1) σ = none by
        simp [rankUnresolvedLoop, hv]] at h
      cases h
    · rw [show rankUnresolvedLoop db fuel (p + 1) σ = some (.error e) by
        simp [rankUnresolvedLoop, hv]] at h
      cases h
    · rcases hr : sr.2 with _ | _
      · rw [show rankUnresolvedLoop db fuel (p + 1) σ = some (.ok sr.1) by
          simp [rankUnresolvedLoop, hv, hr]] at h
        obtain rfl : sr.1 = σ' := by
          cases h
          rfl
        have hv' : ruVersions db fuel db.vers σ false = some (.ok (sr.1, false)) := by
          rw [hv]
          cases sr
          simp_all
        obtain ⟨g1, _, g3⟩ := ruVersions_ok_false db fuel db.vers σ sr.1 false hv'
        intro fuel'
        rw [g1]
        exact g3 fuel'
      · rw [show rankUnresolvedLoop db fuel (p + 1) σ = rankUnresolvedLoop db fuel p sr.1 by
          simp [rankUnresolvedLoop, hv, hr]] at h
        exact ih sr.1 h

/-- C7.  Once `rank_unresolved` has returned, an immediately following call to
`rank_unresolved` makes no forced pick and returns the state unchanged (its
first pass finds nothing to resolve and the loop stops). -/
theorem C7_rank_unresolved_fixpoint (db : DB) (fuel n : Nat) (σ σ' : St)
    (fuel' m : Nat) (h : rankUnresolvedLoop db fuel n σ = some (.ok σ')) :
    rankUnresolvedLoop db fuel' (m + 1) σ' = some (.ok σ') := by
  have hp := rankUnresolvedLoop_ok_stable db fuel n σ σ' h fuel'
  simp [rankUnresolvedLoop, hp]

/-- The state of `db5` after ranking `p` from the wishlist (before
escalation). -/
def σ7pre : St := (getOkR (rankByName db5 10 (initSt db5) "p" (some "W"))).getD (initSt db5)

/-- The state of `db5` after escalation has resolved the `1 | 2` group. -/
def c7st : St := (getOkR (rankUnresolvedLoop db5 10 5 σ7pre)).getD (initSt db5)

/-- Witness for C7 on the concrete escalation run of `db5`. -/
theorem C7_witness : rankUnresolvedLoop db5 7 3 c7st = some (.ok c7st) :=
  C7_rank_unresolved_fixpoint db5 10 5 σ7pre c7st 7 2 rfl

/-- The state of `db5` after ranking version `0` from the wishlist: `0` is
ranked and its `1 | 2` group is pending and drain-stable. -/
def σ6 : St := (getOkR (rankLoop db5 10 (initSt db5) {0} (some "W"))).getD (initSt db5)

/-- Witness for C6: re-seeding the already-ranked version `0` of `db5` leaves
everything except the generation counter unchanged and produces no picks. -/
theorem C6_witness :
    db5.vers.Nodup ∧ σ6.rank 0 = some 1 ∧
    drainGroups σ6 (σ6.unresolved 0) = (σ6.unresolved 0, ∅) ∧
    rankOnce db5 σ6 [0] (some "W") = .ok ({ σ6 with gen := σ6.gen + 1 }, ∅) :=
  ⟨by decide, by decide, by decide,
    (C6_rank_immutable_reseed_noop db5).2.1 σ6 0 1 (some "W") (by decide) (by decide) (by decide)⟩

/-! ### C8: the notify relation -/

/-- Every version that currently holds a target as an alternative of one of
its still-pending unresolved groups is registered in the target's notify
set. -/
def NotifyInv (σ : St) : Prop :=
  ∀ v p, p ∈ σ.unresolved v → ∀ t ∈ expandOrGroup p.2, v ∈ σ.notify t

/-- The drain only ever keeps groups that were already present. -/
theorem drainGroups_kept_subset (σ : St) (l : List (Bool × OrGroup)) :
    ∀ p, p ∈ (drainGroups σ l).1 → p ∈ l := by
  induction l with
  | nil => intro p hp; cases hp
  | cons q rest ih =>
    cases q with
    | mk b g =>
      intro p hp
      by_cases hany : (expandOrGroup g).any (fun t => truthy (σ.rank t)) = true
      · simp only [drainGroups, hany, if_true] at hp
        exact List.mem_cons_of_mem _ (ih p hp)
      · rcases hc : resolveOnce σ (expandOrGroup g) false with _ | c
        · simp only [drainGroups, hany, hc] at hp
          rw [if_neg (by simp [hany])] at hp
          rcases List.mem_cons.1 hp with rfl | hp'
          · exact List.mem_cons_self _ _
          · exact List.mem_cons_of_mem _ (ih p hp')
        · simp only [drainGroups, hany, hc] at hp
          rw [if_neg (by simp [hany])] at hp
          exact List.mem_cons_of_mem _ (ih p hp)

/-- Membership in the notify sets after the registration fold. -/
theorem notifyFold_mem (v : Nat) (l : List Nat) (σ : St) (t x : Nat) :
    x ∈ (l.foldl (fun σ t => { σ with notify := updF σ.notify t (insert v (σ.notify t)) }) σ).notify t ↔
      x ∈ σ.notify t ∨ (x = v ∧ t ∈ l) := by
  induction l generalizing σ with
  | nil => simp
  | cons a as ih =>
    rw [List.foldl_cons, ih]
    rw [show ({ σ with notify := updF σ.notify a (insert v (σ.notify a)) } : St).notify t
        = updF σ.notify a (insert v (σ.notify a)) t from rfl]
    rw [mem_updF_insert σ.notify a v t x]
    simp only [List.mem_cons]
    tauto

theorem registerGroup_unresolved (b : Bool) (v : Nat) (g : OrGroup) (sp : St × Finset Nat) :
    (registerGroup b v g sp).1.unresolved =
      updF sp.1.unresolved v (sp.1.unresolved v ++ [(b, g)]) :=
  (notifyFold_proj v (expandOrGroup g) _).2.2.2.1

theorem registerGroup_notify_mem (b : Bool) (v : Nat) (g : OrGroup)
    (sp : St × Finset Nat) (t x : Nat) :
    x ∈ (registerGroup b v g sp).1.notify t ↔
      x ∈ sp.1.notify t ∨ (x = v ∧ t ∈ expandOrGroup g) :=
  notifyFold_mem v (expandOrGroup g) _ t x

/-- Every dependency-kind handler preserves the notify invariant and only
grows the notify sets. -/
theorem dispatch_notifyInv (k : Kind) (v : Nat) (g : OrGroup)
    (sp sp' : St × Finset Nat) (h : dispatch k v g sp = .ok sp')
    (hinv : NotifyInv sp.1) :
    NotifyInv sp'.1 ∧ ∀ t, sp.1.notify t ⊆ sp'.1.notify t := by
  cases k
  case conflicts | breaks =>
    by_cases hg : g.length ≠ 1
    · simp [dispatch, resolveConflicts, hg] at h
    · simp only [dispatch, resolveConflicts, hg, if_false] at h
      cases h
      constructor
      · intro w p hp ht hmem
        rw [(confFold_proj v (expandOrGroup g) sp).2.2.1] at hp
        rw [(confFold_proj v (expandOrGroup g) sp).2.2.2.1]
        exact hinv w p hp ht hmem
      · intro t
        rw [(confFold_proj v (expandOrGroup g) sp).2.2.2.1]
  case replaces =>
    by_cases hg : g.length ≠ 1
    · simp [dispatch, resolveReplaces, hg] at h
    · simp only [dispatch, resolveReplaces, hg, if_false] at h
      cases h
      constructor
      · intro w p hp ht hmem
        rw [(replFold_proj v (expandOrGroup g) sp).2.2.2.1] at hp
        rw [(replFold_proj v (expandOrGroup g) sp).2.2.2.2.1]
        exact hinv w p hp ht hmem
      · intro t
        rw [(replFold_proj v (expandOrGroup g) sp).2.2.2.2.1]
  case enhances | obsoletes | suggests =>
    all_goals {
      simp only [dispatch, Except.ok.injEq] at h
      subst h
      exact ⟨hinv, fun t _ hx => hx⟩
    }
  case depends | preDepends | recommends =>
    all_goals {
      simp only [dispatch, resolveDepends, resolveRecommends, resolveDependsAndRecommends,
        Except.ok.injEq] at h
      subst h
      constructor
      · intro w p hp ht hmem
        rw [show (registerGroup true v g sp).1.unresolved w =
            updF sp.1.unresolved v (sp.1.unresolved v ++ [(true, g)]) w from
          congrFun (registerGroup_unresolved true v g sp) w] at hp
        by_cases hwv : w = v
        · subst hwv
          rw [updF_same] at hp
          rcases List.mem_append.1 hp with hp' | hp'
          · exact (registerGroup_notify_mem true w g sp ht w).2
              (Or.inl (hinv w p hp' ht hmem))
          · have hpg : p = (true, g) := List.mem_singleton.1 hp'
            subst hpg
            exact (registerGroup_notify_mem true w g sp ht w).2 (Or.inr ⟨rfl, hmem⟩)
        · rw [updF_other _ _ _ _ hwv] at hp
          exact (registerGroup_notify_mem true v g sp ht w).2
            (Or.inl (hinv w p hp ht hmem))
      · intro t x hx
        exact (registerGroup_notify_mem true v g sp t x).2 (Or.inl hx)
    }

theorem applyGroups_notifyInv (k : Kind) (v : Nat) (gs : List OrGroup)
    (sp sp' : St × Finset Nat) (h : applyGroups k v gs sp = .ok sp')
    (hinv : NotifyInv sp.1) :
    NotifyInv sp'.1 ∧ ∀ t, sp.1.notify t ⊆ sp'.1.notify t := by
  induction gs generalizing sp with
  | nil =>
    cases h
    exact ⟨hinv, fun t _ hx => hx⟩
  | cons g gs ih =>
    rcases hd : dispatch k v g sp with e | sp₁
    · rw [show applyGroups k v (g :: gs) sp = .error e by simp [applyGroups, hd]] at h
      cases h
    · rw [show applyGroups k v (g :: gs) sp = applyGroups k v gs sp₁ by
        simp [applyGroups, hd]] at h
      obtain ⟨d1, d2⟩ := dispatch_notifyInv k v g sp sp₁ hd hinv
      obtain ⟨i1, i2⟩ := ih sp₁ h d1
      exact ⟨i1, fun t x hx => i2 t (d2 t hx)⟩

theorem applyDeps_notifyInv (v : Nat) (ds : List (Kind × List OrGroup))
    (sp sp' : St × Finset Nat) (h : applyDeps v ds sp = .ok sp')
    (hinv : NotifyInv sp.1) :
    NotifyInv sp'.1 ∧ ∀ t, sp.1.notify t ⊆ sp'.1.notify t := by
  induction ds generalizing sp with
  | nil =>
    cases h
    exact ⟨hinv, fun t _ hx => hx⟩
  | cons d ds ih =>
    rcases hd : applyGroups d.1 v d.2 sp with e | sp₁
    · rw [show applyDeps v (d :: ds) sp = .error e by cases d; simp [applyDeps, hd]] at h
      cases h
    · rw [show applyDeps v (d :: ds) sp = applyDeps v ds sp₁ by
        cases d; simp_all [applyDeps]] at h
      obtain ⟨d1, d2⟩ := applyGroups_notifyInv d.1 v d.2 sp sp₁ hd hinv
      obtain ⟨i1, i2⟩ := ih sp₁ h d1
      exact ⟨i1, fun t x hx => i2 t (d2 t hx)⟩

theorem rankVersion_notifyInv (db : DB) (hint : Option String) (v : Nat)
    (sp sp' : St × Finset Nat) (h : rankVersion db hint v sp = .ok sp')
    (hinv : NotifyInv sp.1) :
    NotifyInv sp'.1 ∧ ∀ t, sp.1.notify t ⊆ sp'.1.notify t := by
  by_cases hr : sp.1.rank v = none
  · rw [show rankVersion db hint v sp =
        (match applyDeps v (db.deps v)
            ({ sp.1 with rank := updF sp.1.rank v (some sp.1.gen),
                         hint := updF sp.1.hint v hint }, sp.2) with
         | .error e => .error e
         | .ok sp₁ => .ok (sp₁.1, sp₁.2 ∪ sp₁.1.notify v)) by
      simp [rankVersion, hr]] at h
    rcases hd : applyDeps v (db.deps v)
        ({ sp.1 with rank := updF sp.1.rank v (some sp.1.gen),
                     hint := updF sp.1.hint v hint }, sp.2) with e | sp₁
    · rw [hd] at h
      cases h
    · rw [hd] at h
      cases h
      exact applyDeps_notifyInv v (db.deps v)
        ({ sp.1 with rank := updF sp.1.rank v (some sp.1.gen),
                     hint := updF sp.1.hint v hint }, sp.2) sp₁ hd hinv
  · rw [show rankVersion db hint v sp = .ok sp by simp [rankVersion, hr]] at h
    cases h
    exact ⟨hinv, fun t _ hx => hx⟩

theorem rankWave_notifyInv (db : DB) (hint : Option String) (wave : List Nat)
    (sp sp' : St × Finset Nat) (h : rankWave db hint wave sp = .ok sp')
    (hinv : NotifyInv sp.1) :
    NotifyInv sp'.1 ∧ ∀ t, sp.1.notify t ⊆ sp'.1.notify t := by
  induction wave generalizing sp with
  | nil =>
    cases h
    exact ⟨hinv, fun t _ hx => hx⟩
  | cons v vs ih =>
    rcases hv : rankVersion db hint v sp with e | sp₁
    · rw [show rankWave db hint (v :: vs) sp = .error e by simp [rankWave, hv]] at h
      cases h
    · rw [show rankWave db hint (v :: vs) sp = rankWave db hint vs sp₁ by
        simp [rankWave, hv]] at h
      obtain ⟨d1, d2⟩ := rankVersion_notifyInv db hint v sp sp₁ hv hinv
      obtain ⟨i1, i2⟩ := ih sp₁ h d1
      exact ⟨i1, fun t x hx => i2 t (d2 t hx)⟩

theorem drainList_notifyInv (l : List Nat) (σ : St) (acc : Finset Nat)
    (hinv : NotifyInv σ) : NotifyInv (drainList σ l acc).1 := by
  induction l generalizing σ acc with
  | nil => exact hinv
  | cons v vs ih =>
    show NotifyInv (drainList
      { σ with unresolved := updF σ.unresolved v (drainGroups σ (σ.unresolved v)).1 }
      vs (acc ∪ (drainGroups σ (σ.unresolved v)).2)).1
    apply ih
    intro w p hp ht hmem
    show w ∈ σ.notify ht
    by_cases hwv : w = v
    · subst hwv
      rw [show ({ σ with unresolved := updF σ.unresolved w (drainGroups σ (σ.unresolved w)).1 } : St).unresolved w = (drainGroups σ (σ.unresolved w)).1 from updF_same _ _ _] at hp
      exact hinv w p (drainGroups_kept_subset σ (σ.unresolved w) p hp) ht hmem
    · rw [show ({ σ with unresolved := updF σ.unresolved v (drainGroups σ (σ.unresolved v)).1 } : St).unresolved w = σ.unresolved w from updF_other _ _ _ _ hwv] at hp
      exact hinv w p hp ht hmem

/-- C8, amended.  `notify(T)` over-approximates the versions that currently
hold `T` as an alternative of a still-unresolved group: every such holder is
registered (the invariant is preserved by every `rank_once` and by the whole
wave loop), and registrations are never removed, so `notify` only grows — it
is a superset, not exactly the holder set. -/
theorem C8_notify_superset (db : DB) :
    (∀ σ wave hint sp, NotifyInv σ → rankOnce db σ wave hint = .ok sp →
      NotifyInv sp.1 ∧ ∀ t, σ.notify t ⊆ sp.1.notify t) ∧
    (∀ fuel σ wave hint σᵣ, NotifyInv σ → rankLoop db fuel σ wave hint = some (.ok σᵣ) →
      NotifyInv σᵣ ∧ ∀ t, σ.notify t ⊆ σᵣ.notify t) := by
  have hbase : ∀ σ wave hint sp, NotifyInv σ → rankOnce db σ wave hint = .ok sp →
      NotifyInv sp.1 ∧ ∀ t, σ.notify t ⊆ sp.1.notify t := by
    intro σ wave hint sp hinv h
    rcases hph : rankOncePhase db σ wave hint with e | sp₁
    · rw [show rankOnce db σ wave hint = .error e by simp [rankOnce, hph]] at h
      cases h
    · rw [show rankOnce db σ wave hint = .ok (drainList sp₁.1 (canonOrder db sp₁.2) ∅) by
        simp [rankOnce, hph]] at h
      cases h
      have hinv₁ : NotifyInv ({ σ with gen := σ.gen + 1 } : St) := hinv
      obtain ⟨w1, w2⟩ := rankWave_notifyInv db hint wave _ sp₁ hph hinv₁
      refine ⟨drainList_notifyInv (canonOrder db sp₁.2) sp₁.1 ∅ w1, ?_⟩
      intro t
      rw [(drainList_proj (canonOrder db sp₁.2) sp₁.1 ∅).2.2.2.1]
      exact w2 t
  refine ⟨hbase, ?_⟩
  intro fuel
  induction fuel with
  | zero =>
    intro σ wave hint σᵣ hinv h
    cases h
  | succ n ih =>
    intro σ wave hint σᵣ hinv h
    by_cases hw : wave = ∅
    · rw [show rankLoop db (n + 1) σ wave hint = some (.ok σ) by
        simp [rankLoop, hw]] at h
      cases h
      exact ⟨hinv, fun t _ hx => hx⟩
    · rcases ho : rankOnce db σ (sortWave db wave) hint with e | sp
      · rw [show rankLoop db (n + 1) σ wave hint = some (.error e) by
          simp [rankLoop, hw, ho]] at h
        cases h
      · rw [show rankLoop db (n + 1) σ wave hint = rankLoop db n sp.1 sp.2 none by
          simp [rankLoop, hw, ho]] at h
        obtain ⟨b1, b2⟩ := hbase σ (sortWave db wave) hint sp hinv ho
        obtain ⟨i1, i2⟩ := ih sp.1 sp.2 none σᵣ b1 h
        exact ⟨i1, fun t x hx => i2 t (b2 t hx)⟩

/-- The database for the stale-notify counterexample: version `0` depends on
the single candidate target `1`. -/
def db8 : DB where
  vers := [0, 1]
  pkgs := [10, 11]
  parent := fun v => if v = 0 then 10 else if v = 1 then 11 else 99
  pname := fun p => if p = 10 then "a" else if p = 11 then "b" else ""
  deps := fun v => if v = 0 then [(.depends, [[[1]]])] else []
  candOf := fun p => if p = 10 then some 0 else if p = 11 then some 1 else none
  providesList := fun _ => []
  pkgByName := fun s => if s = "a" then some 10 else none
  prio := fun _ => 4
  arch := fun _ => "x"
  foreign := []

/-- The post-state of ranking version `0` of `db8` (one `rank_once`). -/
def c8pair : St × Finset Nat :=
  (getOkE (rankOnce db8 (initSt db8) [0] (some "W"))).getD (initSt db8, ∅)

/-- C8, counterexample.  After ranking version `0` of `db8`, its dependency
group on `1` has been resolved and dropped — `0` no longer holds `1` as an
alternative of any still-unresolved group — yet `0` is still a member of
`notify(1)`: the registration is never removed, so `notify(T)` is not exactly
the set of current holders. -/
theorem C8_counterexample :
    (getOkE (rankOnce db8 (initSt db8) [0] (some "W"))).isSome = true ∧
    0 ∈ c8pair.1.notify 1 ∧ c8pair.1.unresolved 0 = [] := by decide

/-- Witness for C8 on the concrete run of `db8` (the empty initial state
satisfies the invariant). -/
theorem C8_witness :
    NotifyInv c8pair.1 ∧ ∀ t, (initSt db8).notify t ⊆ c8pair.1.notify t :=
  (C8_notify_superset db8).1 (initSt db8) [0] (some "W") c8pair
    (fun _ p hp => absurd hp (List.not_mem_nil p)) rfl

/-! ### C9: termination of the wave loop -/

/-- Every assigned rank is positive (true in every run: the generation counter
is incremented before any assignment). -/
def WellRanked (σ : St) : Prop := ∀ v n, σ.rank v = some n → 0 < n

/-- All expansion targets of the listed groups are known versions. -/
def ClosedGroups (db : DB) (l : List (Bool × OrGroup)) : Prop :=
  ∀ p ∈ l, ∀ t ∈ expandOrGroup p.2, t ∈ db.vers

def ClosedSt (db : DB) (σ : St) : Prop := ∀ v, ClosedGroups db (σ.unresolved v)

/-- All expansion targets of all dependency groups in the database are known
versions. -/
def ClosedDB (db : DB) : Prop :=
  ∀ v kgs, kgs ∈ db.deps v → ∀ g ∈ kgs.2, ∀ t ∈ expandOrGroup g, t ∈ db.vers

/-- The number of versions not yet ranked. -/
def unrankedCount (db : DB) (σ : St) : Nat :=
  (db.vers.toFinset.filter (fun v => σ.rank v = none)).card

/-- A pick of `__resolve_once` is one of the targets. -/
theorem resolveOnce_mem (σ : St) (targets : List Nat) (u : Bool) (c : Nat)
    (h : resolveOnce σ targets u = some c) : c ∈ targets := by
  have hP : ∀ x, (preferredOf σ targets).head? = some x → x ∈ targets := by
    intro x hx
    have : x ∈ preferredOf σ targets := List.mem_of_mem_head? hx
    exact List.mem_of_mem_filter (List.mem_of_mem_filter this)
  have hC : ∀ x, (candidatesOf σ targets).head? = some x → x ∈ targets := by
    intro x hx
    exact List.mem_of_mem_filter (List.mem_of_mem_head? hx)
  unfold resolveOnce at h
  split_ifs at h
  · exact hP c h
  · exact hC c h

/-- Every pick collected by the group scan of the drain comes from a group
none of whose targets is (truthily) ranked, via the non-forced pick rule. -/
theorem drainGroups_picks (σ : St) (l : List (Bool × OrGroup)) (c : Nat)
    (h : c ∈ (drainGroups σ l).2) :
    ∃ p ∈ l, resolveOnce σ (expandOrGroup p.2) false = some c ∧
      (expandOrGroup p.2).any (fun t => truthy (σ.rank t)) = false := by
  induction l with
  | nil => cases h
  | cons q rest ih =>
    cases q with
    | mk b g =>
      by_cases hany : (expandOrGroup g).any (fun t => truthy (σ.rank t)) = true
      · rw [show (drainGroups σ ((b, g) :: rest)).2 = (drainGroups σ rest).2 by
          simp [drainGroups, hany]] at h
        obtain ⟨p, hp, h1, h2⟩ := ih h
        exact ⟨p, List.mem_cons_of_mem _ hp, h1, h2⟩
      · rcases hc : resolveOnce σ (expandOrGroup g) false with _ | c'
        · rw [show (drainGroups σ ((b, g) :: rest)).2 = (drainGroups σ rest).2 by
            simp [drainGroups, hany, hc]] at h
          obtain ⟨p, hp, h1, h2⟩ := ih h
          exact ⟨p, List.mem_cons_of_mem _ hp, h1, h2⟩
        · rw [show (drainGroups σ ((b, g) :: rest)).2 = insert c' (drainGroups σ rest).2 by
            simp [drainGroups, hany, hc]] at h
          rcases Finset.mem_insert.1 h with rfl | h'
          · exact ⟨(b, g), List.mem_cons_self _ _, hc, Bool.not_eq_true _ ▸ hany⟩
          · obtain ⟨p, hp, h1, h2⟩ := ih h'
            exact ⟨p, List.mem_cons_of_mem _ hp, h1, h2⟩

/-- Each handler either leaves a version's unresolved list unchanged or
appends the processed group to the handled version's own list. -/
theorem dispatch_unresolved (k : Kind) (v : Nat) (g : OrGroup)
    (sp sp' : St × Finset Nat) (h : dispatch k v g sp = .ok sp') (w : Nat) :
    sp'.1.unresolved w = sp.1.unresolved w ∨
      (w = v ∧ ∃ b, sp'.1.unresolved w = sp.1.unresolved w ++ [(b, g)]) := by
  cases k
  case conflicts | breaks =>
    by_cases hg : g.length ≠ 1
    · simp [dispatch, resolveConflicts, hg] at h
    · simp only [dispatch, resolveConflicts, hg, if_false] at h
      cases h
      exact Or.inl (congrFun (confFold_proj v (expandOrGroup g) sp).2.2.1 w)
  case replaces =>
    by_cases hg : g.length ≠ 1
    · simp [dispatch, resolveReplaces, hg] at h
    · simp only [dispatch, resolveReplaces, hg, if_false] at h
      cases h
      exact Or.inl (congrFun (replFold_proj v (expandOrGroup g) sp).2.2.2.1 w)
  case enhances | obsoletes | suggests =>
    all_goals {
      simp only [dispatch, Except.ok.injEq] at h
      subst h
      exact Or.inl rfl
    }
  case depends | preDepends | recommends =>
    all_goals {
      simp only [dispatch, resolveDepends, resolveRecommends, resolveDependsAndRecommends,
        Except.ok.injEq] at h
      subst h
      rw [show (registerGroup true v g sp).1.unresolved w =
          updF sp.1.unresolved v (sp.1.unresolved v ++ [(true, g)]) w from
        congrFun (registerGroup_unresolved true v g sp) w]
      by_cases hwv : w = v
      · subst hwv
        rw [updF_same]
        exact Or.inr ⟨rfl, true, rfl⟩
      · rw [updF_other _ _ _ _ hwv]
        exact Or.inl rfl
    }

theorem applyGroups_closed (db : DB) (k : Kind) (v : Nat) (gs : List OrGroup)
    (sp sp' : St × Finset Nat) (h : applyGroups k v gs sp = .ok sp')
    (hgs : ∀ g ∈ gs, ∀ t ∈ expandOrGroup g, t ∈ db.vers)
    (hcl : ClosedSt db sp.1) : ClosedSt db sp'.1 := by
  induction gs generalizing sp with
  | nil =>
    cases h
    exact hcl
  | cons g gs ih =>
    rcases hd : dispatch k v g sp with e | sp₁
    · rw [show applyGroups k v (g :: gs) sp = .error e by simp [applyGroups, hd]] at h
      cases h
    · rw [show applyGroups k v (g :: gs) sp = applyGroups k v gs sp₁ by
        simp [applyGroups, hd]] at h
      refine ih sp₁ h (fun g' hg' => hgs g' (List.mem_cons_of_mem _ hg')) ?_
      intro w p hp
      rcases dispatch_unresolved k v g sp sp₁ hd w with he | ⟨rfl, b, he⟩
      · rw [he] at hp
        exact hcl w p hp
      · rw [he] at hp
        rcases List.mem_append.1 hp with hp' | hp'
        · exact hcl w p hp'
        · cases List.mem_singleton.1 hp'
          exact hgs g (List.mem_cons_self _ _)

theorem applyDeps_closed (db : DB) (v : Nat) (ds : List (Kind × List OrGroup))
    (sp sp' : St × Finset Nat) (h : applyDeps v ds sp = .ok sp')
    (hds : ∀ kgs ∈ ds, ∀ g ∈ kgs.2, ∀ t ∈ expandOrGroup g, t ∈ db.vers)
    (hcl : ClosedSt db sp.1) : ClosedSt db sp'.1 := by
  induction ds generalizing sp with
  | nil =>
    cases h
    exact hcl
  | cons d ds ih =>
    rcases hd : applyGroups d.1 v d.2 sp with e | sp₁
    · rw [show applyDeps v (d :: ds) sp = .error e by cases d; simp [applyDeps, hd]] at h
      cases h
    · rw [show applyDeps v (d :: ds) sp = applyDeps v ds sp₁ by
        cases d; simp_all [applyDeps]] at h
      exact ih sp₁ h (fun kgs hk => hds kgs (List.mem_cons_of_mem _ hk))
        (applyGroups_closed db d.1 v d.2 sp sp₁ hd
          (hds d (List.mem_cons_self _ _)) hcl)

theorem rankVersion_closed (db : DB) (hint : Option String) (v : Nat)
    (sp sp' : St × Finset Nat) (h : rankVersion db hint v sp = .ok sp')
    (hdb : ClosedDB db) (hcl : ClosedSt db sp.1) : ClosedSt db sp'.1 := by
  by_cases hr : sp.1.rank v = none
  · rw [show rankVersion db hint v sp =
        (match applyDeps v (db.deps v)
            ({ sp.1 with rank := updF sp.1.rank v (some sp.1.gen),
                         hint := updF sp.1.hint v hint }, sp.2) with
         | .error e => .error e
         | .ok sp₁ => .ok (sp₁.1, sp₁.2 ∪ sp₁.1.notify v)) by
      simp [rankVersion, hr]] at h
    rcases hd : applyDeps v (db.deps v)
        ({ sp.1 with rank := updF sp.1.rank v (some sp.1.gen),
                     hint := updF sp.1.hint v hint }, sp.2) with e | sp₁
    · rw [hd] at h
      cases h
    · rw [hd] at h
      cases h
      exact applyDeps_closed db v (db.deps v)
        ({ sp.1 with rank := updF sp.1.rank v (some sp.1.gen),
                     hint := updF sp.1.hint v hint }, sp.2) sp₁ hd
        (fun kgs hk => hdb v kgs hk) hcl
  · rw [show rankVersion db hint v sp = .ok sp by simp [rankVersion, hr]] at h
    cases h
    exact hcl

theorem rankWave_closed (db : DB) (hint : Option String) (wave : List Nat)
    (sp sp' : St × Finset Nat) (h : rankWave db hint wave sp = .ok sp')
    (hdb : ClosedDB db) (hcl : ClosedSt db sp.1) : ClosedSt db sp'.1 := by
  induction wave generalizing sp with
  | nil =>
    cases h
    exact hcl
  | cons v vs ih =>
    rcases hv : rankVersion db hint v sp with e | sp₁
    · rw [show rankWave db hint (v :: vs) sp = .error e by simp [rankWave, hv]] at h
      cases h
    · rw [show rankWave db hint (v :: vs) sp = rankWave db hint vs sp₁ by
        simp [rankWave, hv]] at h
      exact ih sp₁ h (rankVersion_closed db hint v sp sp₁ hv hdb hcl)

theorem drainList_closed (db : DB) (l : List Nat) (σ : St) (acc : Finset Nat)
    (hcl : ClosedSt db σ) : ClosedSt db (drainList σ l acc).1 := by
  induction l generalizing σ acc with
  | nil => exact hcl
  | cons v vs ih =>
    show ClosedSt db (drainList
      { σ with unresolved := updF σ.unresolved v (drainGroups σ (σ.unresolved v)).1 }
      vs (acc ∪ (drainGroups σ (σ.unresolved v)).2)).1
    apply ih
    intro w p hp
    by_cases hwv : w = v
    · subst hwv
      rw [show ({ σ with unresolved := updF σ.unresolved w (drainGroups σ (σ.unresolved w)).1 } : St).unresolved w = (drainGroups σ (σ.unresolved w)).1 from updF_same _ _ _] at hp
      exact hcl w p (drainGroups_kept_subset σ (σ.unresolved w) p hp)
    · rw [show ({ σ with unresolved := updF σ.unresolved v (drainGroups σ (σ.unresolved v)).1 } : St).unresolved w = σ.unresolved w from updF_other _ _ _ _ hwv] at hp
      exact hcl w p hp

/-- Ranking an unranked version assigns the current generation. -/
theorem rankVersion_sets (db : DB) (hint : Option String) (v : Nat)
    (sp sp₁ : St × Finset Nat) (h : rankVersion db hint v sp = .ok sp₁)
    (hr : sp.1.rank v = none) : sp₁.1.rank v = some sp.1.gen := by
  rw [show rankVersion db hint v sp =
      (match applyDeps v (db.deps v)
          ({ sp.1 with rank := updF sp.1.rank v (some sp.1.gen),
                       hint := updF sp.1.hint v hint }, sp.2) with
       | .error e => .error e
       | .ok spd => .ok (spd.1, spd.2 ∪ spd.1.notify v)) by
    simp [rankVersion, hr]] at h
  rcases hd : applyDeps v (db.deps v)
      ({ sp.1 with rank := updF sp.1.rank v (some sp.1.gen),
                   hint := updF sp.1.hint v hint }, sp.2) with e | spd
  · rw [hd] at h
    cases h
  · rw [hd] at h
    cases h
    rw [show spd.1.rank = updF sp.1.rank v (some sp.1.gen) from
      (applyDeps_ok_proj v (db.deps v) _ spd hd).1]
    exact updF_same _ _ _

/-- When an already-ranked version is passed through the ranking step, nothing
happens. -/
theorem rankVersion_skip (db : DB) (hint : Option String) (v : Nat)
    (sp : St × Finset Nat) (hr : sp.1.rank v ≠ none) :
    rankVersion db hint v sp = .ok sp := by
  simp [rankVersion, hr]

/-- Every wave member ends the ranking loop ranked. -/
theorem rankWave_ranks (db : DB) (hint : Option String) (wave : List Nat)
    (sp sp' : St × Finset Nat) (h : rankWave db hint wave sp = .ok sp')
    (v : Nat) (hv : v ∈ wave) : sp'.1.rank v ≠ none := by
  induction wave generalizing sp with
  | nil => cases hv
  | cons w ws ih =>
    rcases hw : rankVersion db hint w sp with e | sp₁
    · rw [show rankWave db hint (w :: ws) sp = .error e by simp [rankWave, hw]] at h
      cases h
    · rw [show rankWave db hint (w :: ws) sp = rankWave db hint ws sp₁ by
        simp [rankWave, hw]] at h
      rcases List.mem_cons.1 hv with rfl | hv'
      · by_cases hr : sp.1.rank v = none
        · have hset := rankVersion_sets db hint v sp sp₁ hw hr
          have := (rankWave_ok_rank db hint ws sp₁ sp' h).1 v sp.1.gen hset
          rw [this]
          exact Option.some_ne_none _
        · obtain ⟨r, hr'⟩ := Option.ne_none_iff_exists'.1 hr
          rw [rankVersion_skip db hint v sp hr] at hw
          cases hw
          have := (rankWave_ok_rank db hint ws sp sp' h).1 v r hr'
          rw [this]
          exact Option.some_ne_none _
      · exact ih sp₁ h hv'

/-- Rank facts across one whole `rank_once`: set ranks persist, any change
assigns the new generation, and every unranked wave member gets ranked. -/
theorem rankOnce_rank_facts (db : DB) (σ : St) (wave : List Nat)
    (hint : Option String) (sp : St × Finset Nat)
    (h : rankOnce db σ wave hint = .ok sp) :
    (∀ w r, σ.rank w = some r → sp.1.rank w = some r) ∧
    (∀ w, sp.1.rank w = σ.rank w ∨ sp.1.rank w = some (σ.gen + 1)) ∧
    (∀ v ∈ wave, σ.rank v = none → sp.1.rank v ≠ none) := by
  rcases hph : rankOncePhase db σ wave hint with e | sp₁
  · rw [show rankOnce db σ wave hint = .error e by simp [rankOnce, hph]] at h
    cases h
  · rw [show rankOnce db σ wave hint = .ok (drainList sp₁.1 (canonOrder db sp₁.2) ∅) by
      simp [rankOnce, hph]] at h
    cases h
    have hdr : (drainList sp₁.1 (canonOrder db sp₁.2) ∅).1.rank = sp₁.1.rank :=
      (drainList_proj (canonOrder db sp₁.2) sp₁.1 ∅).1
    obtain ⟨w1, w2, _, _⟩ := rankWave_ok_rank db hint wave _ sp₁ hph
    refine ⟨?_, ?_, ?_⟩
    · intro w r hw
      rw [hdr]
      exact w1 w r hw
    · intro w
      rw [hdr]
      exact w2 w
    · intro v hv _
      rw [hdr]
      exact rankWave_ranks db hint wave _ sp₁ hph v hv

theorem rankOnce_wellRanked (db : DB) (σ : St) (wave : List Nat)
    (hint : Option String) (sp : St × Finset Nat)
    (h : rankOnce db σ wave hint = .ok sp) (hwr : WellRanked σ) :
    WellRanked sp.1 := by
  intro w n hw
  rcases (rankOnce_rank_facts db σ wave hint sp h).2.1 w with he | he
  · exact hwr w n (he ▸ hw)
  · rw [he] at hw
    cases hw
    exact Nat.succ_pos _

theorem rankOnce_closed (db : DB) (σ : St) (wave : List Nat)
    (hint : Option String) (sp : St × Finset Nat)
    (h : rankOnce db σ wave hint = .ok sp) (hdb : ClosedDB db)
    (hcl : ClosedSt db σ) : ClosedSt db sp.1 := by
  rcases hph : rankOncePhase db σ wave hint with e | sp₁
  · rw [show rankOnce db σ wave hint = .error e by simp [rankOnce, hph]] at h
    cases h
  · rw [show rankOnce db σ wave hint = .ok (drainList sp₁.1 (canonOrder db sp₁.2) ∅) by
      simp [rankOnce, hph]] at h
    cases h
    exact drainList_closed db (canonOrder db sp₁.2) sp₁.1 ∅
      (rankWave_closed db hint wave _ sp₁ hph hdb hcl)

/-- Specification of the result set of a `rank_once`: every element is an
unranked known version. -/
theorem rankOnce_result_spec (db : DB) (σ : St) (wave : List Nat)
    (hint : Option String) (sp : St × Finset Nat)
    (h : rankOnce db σ wave hint = .ok sp) (hnd : db.vers.Nodup)
    (hdb : ClosedDB db) (hcl : ClosedSt db σ) (hwr : WellRanked σ) :
    ∀ c ∈ sp.2, sp.1.rank c = none ∧ c ∈ db.vers := by
  rcases hph : rankOncePhase db σ wave hint with e | sp₁
  · rw [show rankOnce db σ wave hint = .error e by simp [rankOnce, hph]] at h
    cases h
  · rw [show rankOnce db σ wave hint = .ok (drainList sp₁.1 (canonOrder db sp₁.2) ∅) by
      simp [rankOnce, hph]] at h
    cases h
    have hndC : (canonOrder db sp₁.2).Nodup := List.Nodup.filter _ hnd
    have hcl₁ : ClosedSt db sp₁.1 := rankWave_closed db hint wave _ sp₁ hph hdb hcl
    have hwr₁ : WellRanked sp₁.1 := by
      intro w n hw
      rcases (rankWave_ok_rank db hint wave _ sp₁ hph).2.1 w with he | he
      · exact hwr w n (he ▸ hw)
      · rw [he] at hw
        cases hw
        exact Nat.succ_pos _
    intro c hc
    rw [drainList_acc (canonOrder db sp₁.2) sp₁.1 ∅ hndC c] at hc
    rcases hc with hc | ⟨v, _, hc⟩
    · cases hc
    · obtain ⟨p, hp, hres, hany⟩ := drainGroups_picks sp₁.1 (sp₁.1.unresolved v) c hc
      have hct : c ∈ expandOrGroup p.2 := resolveOnce_mem sp₁.1 _ false c hres
      have hcv : c ∈ db.vers := hcl₁ v p hp c hct
      have hnone : sp₁.1.rank c = none := by
        have hf : truthy (sp₁.1.rank c) = false := by
          have := List.any_eq_false.1 hany c hct
          simpa using this
        rcases he : sp₁.1.rank c with _ | n
        · rfl
        · rw [he] at hf
          have hn : n = 0 := by
            by_contra hn0
            simp [truthy, hn0] at hf
          exact absurd (hwr₁ c n he) (by omega)
      rw [(drainList_proj (canonOrder db sp₁.2) sp₁.1 ∅).1]
      exact ⟨hnone, hcv⟩

/-- Stable insertion preserves membership. -/
theorem insertByName_mem (db : DB) (v : Nat) (l : List Nat) (x : Nat) :
    x ∈ insertByName db v l ↔ x ∈ v :: l := by
  induction l with
  | nil => simp [insertByName]
  | cons w ws ih =>
    by_cases hle : db.pname (db.parent v) ≤ db.pname (db.parent w)
    · simp [insertByName, hle]
    · simp only [insertByName, hle, if_false, List.mem_cons, ih]
      tauto

/-- The name-sorted wave enumerates exactly the known members of the wave
set. -/
theorem sortWave_mem (db : DB) (s : Finset Nat) (x : Nat) :
    x ∈ sortWave db s ↔ x ∈ db.vers ∧ x ∈ s := by
  have haux : ∀ l : List Nat, x ∈ l.foldr (insertByName db) [] ↔ x ∈ l := by
    intro l
    induction l with
    | nil => simp
    | cons a as ih =>
      rw [List.foldr_cons, insertByName_mem, List.mem_cons, ih, List.mem_cons]
  rw [sortWave, haux, canonOrder, List.mem_filter]
  simp

theorem unrankedCount_le (db : DB) (σ σ' : St)
    (hsub : ∀ w, σ'.rank w = none → σ.rank w = none) :
    unrankedCount db σ' ≤ unrankedCount db σ :=
  Finset.card_le_card (fun w hw => by
    rw [Finset.mem_filter] at hw ⊢
    exact ⟨hw.1, hsub w hw.2⟩)

theorem unrankedCount_lt (db : DB) (σ σ' : St)
    (hsub : ∀ w, σ'.rank w = none → σ.rank w = none)
    (v : Nat) (hv : v ∈ db.vers) (h1 : σ.rank v = none) (h2 : σ'.rank v ≠ none) :
    unrankedCount db σ' < unrankedCount db σ :=
  Finset.card_lt_card (Finset.ssubset_iff_of_subset (fun w hw => by
      rw [Finset.mem_filter] at hw ⊢
      exact ⟨hw.1, hsub w hw.2⟩)
    |>.2 ⟨v, by
      rw [Finset.mem_filter]
      exact ⟨List.mem_toFinset.2 hv, h1⟩,
      fun hmem => h2 (Finset.mem_filter.1 hmem).2⟩)

/-- The wave loop reaches its exit within `n + 1` iterations when at most `n`
versions are unranked and every wave member is an unranked known version. -/
theorem rankLoop_terminates_aux (db : DB) (hdb : ClosedDB db)
    (hnd : db.vers.Nodup) :
    ∀ n (σ : St) (wave : Finset Nat) hint, WellRanked σ → ClosedSt db σ →
    (∀ v ∈ wave, σ.rank v = none) → (∀ v ∈ wave, v ∈ db.vers) →
    unrankedCount db σ ≤ n →
    rankLoop db (n + 1) σ wave hint ≠ none := by
  intro n
  induction n with
  | zero =>
    intro σ wave hint _ _ hwnone hwvers hcount
    by_cases hw : wave = ∅
    · rw [show rankLoop db 1 σ wave hint = some (.ok σ) by simp [rankLoop, hw]]
      exact Option.some_ne_none _
    · exfalso
      obtain ⟨v, hv⟩ := Finset.nonempty_iff_ne_empty.2 hw
      have : v ∈ db.vers.toFinset.filter (fun v => σ.rank v = none) := by
        rw [Finset.mem_filter]
        exact ⟨List.mem_toFinset.2 (hwvers v hv), hwnone v hv⟩
      have := Finset.card_pos.2 ⟨v, this⟩
      unfold unrankedCount at hcount
      omega
  | succ n ih =>
    intro σ wave hint hwr hcl hwnone hwvers hcount
    by_cases hw : wave = ∅
    · rw [show rankLoop db (n + 1 + 1) σ wave hint = some (.ok σ) by simp [rankLoop, hw]]
      exact Option.some_ne_none _
    · rcases ho : rankOnce db σ (sortWave db wave) hint with e | sp
      · rw [show rankLoop db (n + 1 + 1) σ wave hint = some (.error e) by
          simp [rankLoop, hw, ho]]
        exact Option.some_ne_none _
      · rw [show rankLoop db (n + 1 + 1) σ wave hint = rankLoop db (n + 1) sp.1 sp.2 none by
          simp [rankLoop, hw, ho]]
        obtain ⟨f1, f2, f3⟩ := rankOnce_rank_facts db σ (sortWave db wave) hint sp ho
        have hsub : ∀ w, sp.1.rank w = none → σ.rank w = none := by
          intro w hwn
          rcases f2 w with he | he
          · rw [← he]
            exact hwn
          · rw [he] at hwn
            cases hwn
        have hres := rankOnce_result_spec db σ (sortWave db wave) hint sp ho hnd hdb hcl hwr
        obtain ⟨v, hv⟩ := Finset.nonempty_iff_ne_empty.2 hw
        have hvs : v ∈ sortWave db wave := (sortWave_mem db wave v).2 ⟨hwvers v hv, hv⟩
        have hlt : unrankedCount db sp.1 < unrankedCount db σ :=
          unrankedCount_lt db σ sp.1 hsub v (hwvers v hv) (hwnone v hv)
            (f3 v hvs (hwnone v hv))
        exact ih sp.1 sp.2 none
          (rankOnce_wellRanked db σ _ hint sp ho hwr)
          (rankOnce_closed db σ _ hint sp ho hdb hcl)
          (fun c hc => (hres c hc).1)
          (fun c hc => (hres c hc).2)
          (by omega)

/-- A wave all of whose members are already ranked leaves the ranking loop's
state untouched. -/
theorem rankWave_id_of_ranked (db : DB) (hint : Option String) (wave : List Nat)
    (sp : St × Finset Nat) (h : ∀ v ∈ wave, sp.1.rank v ≠ none) :
    rankWave db hint wave sp = .ok sp := by
  induction wave with
  | nil => rfl
  | cons v vs ih =>
    rw [show rankWave db hint (v :: vs) sp = rankWave db hint vs sp by
      simp [rankWave, rankVersion_skip db hint v sp (h v (List.mem_cons_self _ _))]]
    exact ih (fun w hw => h w (List.mem_cons_of_mem _ hw))

/-- C9.  (i) The wave loop of `rank` terminates: fuel `unrankedCount + 2`
always suffices to reach the loop's exit (or a fatal error).  (ii) Each wave
either ranks at least one previously-unranked member, or — when every member
is already ranked and drain-stable, as between top-level calls — yields an
empty result set.  (iii) The loop ends exactly when a wave's result set is
empty: a non-empty wave whose `rank_once` returns an empty result makes the
loop return the current state. -/
theorem C9_wave_loop_terminates (db : DB) (hdb : ClosedDB db) (hnd : db.vers.Nodup) :
    (∀ σ (wave : Finset Nat) hint, WellRanked σ → ClosedSt db σ →
      (∀ v ∈ wave, v ∈ db.vers) →
      rankLoop db (unrankedCount db σ + 2) σ wave hint ≠ none) ∧
    (∀ σ (wave : Finset Nat) hint sp,
      (∀ v ∈ wave, v ∈ db.vers) →
      (∀ v ∈ wave, σ.rank v = none ∨ drainGroups σ (σ.unresolved v) = (σ.unresolved v, ∅)) →
      rankOnce db σ (sortWave db wave) hint = .ok sp →
      (∃ v ∈ wave, σ.rank v = none ∧ sp.1.rank v ≠ none) ∨ sp.2 = ∅) ∧
    (∀ σ (wave : Finset Nat) hint sp f, wave ≠ ∅ →
      rankOnce db σ (sortWave db wave) hint = .ok sp → sp.2 = ∅ →
      rankLoop db (f + 2) σ wave hint = some (.ok sp.1)) := by
  refine ⟨?_, ?_, ?_⟩
  · intro σ wave hint hwr hcl hwv
    by_cases hw : wave = ∅
    · rw [show rankLoop db (unrankedCount db σ + 2) σ wave hint = some (.ok σ) by
        simp [rankLoop, hw]]
      exact Option.some_ne_none _
    · rcases ho : rankOnce db σ (sortWave db wave) hint with e | sp
      · rw [show rankLoop db (unrankedCount db σ + 2) σ wave hint = some (.error e) by
          simp [rankLoop, hw, ho]]
        exact Option.some_ne_none _
      · rw [show rankLoop db (unrankedCount db σ + 2) σ wave hint =
            rankLoop db (unrankedCount db σ + 1) sp.1 sp.2 none by
          simp [rankLoop, hw, ho]]
        have hsub : ∀ w, sp.1.rank w = none → σ.rank w = none := by
          intro w hwn
          rcases (rankOnce_rank_facts db σ (sortWave db wave) hint sp ho).2.1 w with he | he
          · rw [← he]
            exact hwn
          · rw [he] at hwn
            cases hwn
        have hres := rankOnce_result_spec db σ (sortWave db wave) hint sp ho hnd hdb hcl hwr
        exact rankLoop_terminates_aux db hdb hnd (unrankedCount db σ) sp.1 sp.2 none
          (rankOnce_wellRanked db σ _ hint sp ho hwr)
          (rankOnce_closed db σ _ hint sp ho hdb hcl)
          (fun c hc => (hres c hc).1)
          (fun c hc => (hres c hc).2)
          (unrankedCount_le db σ sp.1 hsub)
  · intro σ wave hint sp hwv hstab hok
    by_cases hex : ∃ v ∈ wave, σ.rank v = none
    · obtain ⟨v, hv, hnone⟩ := hex
      have hvs : v ∈ sortWave db wave := (sortWave_mem db wave v).2 ⟨hwv v hv, hv⟩
      exact Or.inl ⟨v, hv, hnone,
        (rankOnce_rank_facts db σ (sortWave db wave) hint sp hok).2.2 v hvs hnone⟩
    · push_neg at hex
      right
      have hid : rankWave db hint (sortWave db wave)
          ({ σ with gen := σ.gen + 1 }, (sortWave db wave).toFinset) =
          .ok ({ σ with gen := σ.gen + 1 }, (sortWave db wave).toFinset) := by
        apply rankWave_id_of_ranked
        intro v hv
        exact hex v ((sortWave_mem db wave v).1 hv).2
      have hph : rankOncePhase db σ (sortWave db wave) hint =
          .ok ({ σ with gen := σ.gen + 1 }, (sortWave db wave).toFinset) := hid
      rw [show rankOnce db σ (sortWave db wave) hint =
          .ok (drainList ({ σ with gen := σ.gen + 1 })
            (canonOrder db (sortWave db wave).toFinset) ∅) by
        simp [rankOnce, hph]] at hok
      cases hok
      have hndC : (canonOrder db (sortWave db wave).toFinset).Nodup :=
        List.Nodup.filter _ hnd
      rw [Finset.eq_empty_iff_forall_not_mem]
      intro x hx
      rw [drainList_acc _ _ _ hndC x] at hx
      rcases hx with hx | ⟨v, hvord, hx⟩
      · cases hx
      · have hvw : v ∈ wave := by
          have := (List.mem_filter.1 hvord).2
          have hvm : v ∈ (sortWave db wave).toFinset := by
            simpa using this
          exact ((sortWave_mem db wave v).1 (List.mem_toFinset.1 hvm)).2
        have hstable : drainGroups σ (σ.unresolved v) = (σ.unresolved v, ∅) := by
          rcases hstab v hvw with hn | hs
          · exact absurd hn (hex v hvw)
          · exact hs
        have : drainGroups ({ σ with gen := σ.gen + 1 } : St)
            (({ σ with gen := σ.gen + 1 } : St).unresolved v) = (σ.unresolved v, ∅) := by
          rw [drainGroups_congr ({ σ with gen := σ.gen + 1 }) σ rfl rfl rfl]
          exact hstable
        rw [this] at hx
        cases hx
  · intro σ wave hint sp f hw hok hres
    rw [show rankLoop db (f + 2) σ wave hint = rankLoop db (f + 1) sp.1 sp.2 none by
      simp [rankLoop, hw, hok]]
    rw [hres]
    simp [rankLoop]

/-- Witness for C9: the termination bound applied to the concrete `db8` run
seeded with the unranked version `0`. -/
theorem C9_witness :
    rankLoop db8 (unrankedCount db8 (initSt db8) + 2) (initSt db8) {0} (some "W") ≠ none := by
  have hdb : ClosedDB db8 := by
    intro v kgs hk g hg t ht
    by_cases hv : v = 0
    · subst hv
      have hk' : kgs = (Kind.depends, [[[1]]]) := by
        simpa [db8] using hk
      subst hk'
      have hg' : g = [[1]] := by
        simpa using hg
      subst hg'
      rw [show expandOrGroup [[1]] = [1] by decide] at ht
      cases List.mem_singleton.1 ht
      decide
    · rw [show db8.deps v = [] by simp [db8, hv]] at hk
      cases hk
  exact (C9_wave_loop_terminates db8 hdb (by decide)).1 (initSt db8) {0} (some "W")
    (fun v n h => Option.noConfusion h)
    (fun v p hp => absurd hp (List.not_mem_nil p))
    (by decide)

/-! ### C10: the `optional` flag is dead data -/

/-- Forget the `optional` flag stored alongside each unresolved group. -/
def stripFlags (l : List (Bool × OrGroup)) : List OrGroup := l.map Prod.snd

/-- Two resolution states that agree on everything except possibly the
`optional` flags stored in their unresolved lists. -/
def FlagEq (σ₁ σ₂ : St) : Prop :=
  σ₁.rank = σ₂.rank ∧ σ₁.hint = σ₂.hint ∧ σ₁.conflicts = σ₂.conflicts ∧
  (∀ v, stripFlags (σ₁.unresolved v) = stripFlags (σ₂.unresolved v)) ∧
  σ₁.notify = σ₂.notify ∧ σ₁.replacedBy = σ₂.replacedBy ∧
  σ₁.cand = σ₂.cand ∧ σ₁.gen = σ₂.gen

theorem flagEq_refl (σ : St) : FlagEq σ σ :=
  ⟨rfl, rfl, rfl, fun _ => rfl, rfl, rfl, rfl, rfl⟩

/-- Handler outcomes related up to flags. -/
def ExceptRel : Except String (St × Finset Nat) → Except String (St × Finset Nat) → Prop
  | .error e₁, .error e₂ => e₁ = e₂
  | .ok a, .ok b => FlagEq a.1 b.1 ∧ a.2 = b.2
  | _, _ => False

/-- Run outcomes related up to flags. -/
def RunRel : Option (Except String St) → Option (Except String St) → Prop
  | none, none => True
  | some (.error e₁), some (.error e₂) => e₁ = e₂
  | some (.ok σ₁), some (.ok σ₂) => FlagEq σ₁ σ₂
  | _, _ => False

/-- Pass outcomes of `rank_unresolved` related up to flags. -/
def PassRel : Option (Except String (St × Bool)) → Option (Except String (St × Bool)) → Prop
  | none, none => True
  | some (.error e₁), some (.error e₂) => e₁ = e₂
  | some (.ok a), some (.ok b) => FlagEq a.1 b.1 ∧ a.2 = b.2
  | _, _ => False

theorem flagEq_unres_ne (σ₁ σ₂ : St) (h : FlagEq σ₁ σ₂) (s : Nat) :
    (σ₁.unresolved s ≠ []) ↔ (σ₂.unresolved s ≠ []) := by
  have := h.2.2.2.1 s
  constructor
  · intro h1 h2
    rw [h2] at this
    exact h1 (List.map_eq_nil_iff.1 this)
  · intro h1 h2
    rw [h2] at this
    exact h1 (List.map_eq_nil_iff.1 this.symm)

theorem flagEq_resolveOnce (σ₁ σ₂ : St) (h : FlagEq σ₁ σ₂) (t : List Nat) (u : Bool) :
    resolveOnce σ₁ t u = resolveOnce σ₂ t u :=
  resolveOnce_congr σ₁ σ₂ h.2.2.2.2.2.2.1 h.2.2.1 t u

/-- The drain's group scan is flag-oblivious: on flag-equal lists in flag-equal
states it keeps flag-equal lists and collects identical picks. -/
theorem drainGroups_flagEq (σ₁ σ₂ : St) (h : FlagEq σ₁ σ₂) :
    ∀ l₁ l₂, stripFlags l₁ = stripFlags l₂ →
    stripFlags (drainGroups σ₁ l₁).1 = stripFlags (drainGroups σ₂ l₂).1 ∧
    (drainGroups σ₁ l₁).2 = (drainGroups σ₂ l₂).2 := by
  intro l₁
  induction l₁ with
  | nil =>
    intro l₂ hl
    cases l₂ with
    | nil => exact ⟨rfl, rfl⟩
    | cons q r => cases hl
  | cons p r₁ ih =>
    intro l₂ hl
    cases l₂ with
    | nil => cases hl
    | cons q r₂ =>
      cases p with
      | mk b₁ g₁ =>
        cases q with
        | mk b₂ g₂ =>
          obtain ⟨hg, hr⟩ : g₁ = g₂ ∧ stripFlags r₁ = stripFlags r₂ := by
            rw [stripFlags, stripFlags, List.map_cons, List.map_cons] at hl
            exact ⟨List.head_eq_of_cons_eq hl, List.tail_eq_of_cons_eq hl⟩
          subst hg
          obtain ⟨ih1, ih2⟩ := ih r₂ hr
          have hrank : (fun t => truthy (σ₁.rank t)) = fun t => truthy (σ₂.rank t) := by
            rw [h.1]
          by_cases hany : (expandOrGroup g₁).any (fun t => truthy (σ₁.rank t)) = true
          · rw [show (drainGroups σ₁ ((b₁, g₁) :: r₁)) = drainGroups σ₁ r₁ by
                simp [drainGroups, hany],
              show (drainGroups σ₂ ((b₂, g₁) :: r₂)) = drainGroups σ₂ r₂ by
                simp [drainGroups, hrank ▸ hany]]
            exact ⟨ih1, ih2⟩
          · rcases hc : resolveOnce σ₁ (expandOrGroup g₁) false with _ | c
            · rw [show (drainGroups σ₁ ((b₁, g₁) :: r₁)) =
                  ((b₁, g₁) :: (drainGroups σ₁ r₁).1, (drainGroups σ₁ r₁).2) by
                  simp [drainGroups, hany, hc],
                show (drainGroups σ₂ ((b₂, g₁) :: r₂)) =
                  ((b₂, g₁) :: (drainGroups σ₂ r₂).1, (drainGroups σ₂ r₂).2) by
                  simp [drainGroups, hrank ▸ hany,
                    (flagEq_resolveOnce σ₁ σ₂ h (expandOrGroup g₁) false) ▸ hc]]
              refine ⟨?_, ih2⟩
              rw [stripFlags, stripFlags, List.map_cons, List.map_cons]
              rw [show (b₁, g₁).2 = (b₂, g₁).2 from rfl]
              exact congrArg _ ih1
            · rw [show (drainGroups σ₁ ((b₁, g₁) :: r₁)) =
                  ((drainGroups σ₁ r₁).1, insert c (drainGroups σ₁ r₁).2) by
                  simp [drainGroups, hany, hc],
                show (drainGroups σ₂ ((b₂, g₁) :: r₂)) =
                  ((drainGroups σ₂ r₂).1, insert c (drainGroups σ₂ r₂).2) by
                  simp [drainGroups, hrank ▸ hany,
                    (flagEq_resolveOnce σ₁ σ₂ h (expandOrGroup g₁) false) ▸ hc]]
              exact ⟨ih1, by rw [ih2]⟩

/-- The conflict handler is flag-oblivious. -/
theorem addConflictTarget_flagEq (v t : Nat) (sp₁ sp₂ : St × Finset Nat)
    (h : FlagEq sp₁.1 sp₂.1) (hp : sp₁.2 = sp₂.2) :
    FlagEq (addConflictTarget v t sp₁).1 (addConflictTarget v t sp₂).1 ∧
    (addConflictTarget v t sp₁).2 = (addConflictTarget v t sp₂).2 := by
  obtain ⟨h1, h2, h3, h4, h5, h6, h7, h8⟩ := h
  constructor
  · exact ⟨h1, h2, by rw [show (addConflictTarget v t sp₁).1.conflicts =
        updF (updF sp₁.1.conflicts v (insert t (sp₁.1.conflicts v))) t
          (insert v (updF sp₁.1.conflicts v (insert t (sp₁.1.conflicts v)) t)) from rfl,
        show (addConflictTarget v t sp₂).1.conflicts =
        updF (updF sp₂.1.conflicts v (insert t (sp₂.1.conflicts v))) t
          (insert v (updF sp₂.1.conflicts v (insert t (sp₂.1.conflicts v)) t)) from rfl, h3],
      h4, h5, h6, h7, h8⟩
  · show sp₁.2 ∪ (sp₁.1.notify t).filter (fun s => sp₁.1.unresolved s ≠ []) =
      sp₂.2 ∪ (sp₂.1.notify t).filter (fun s => sp₂.1.unresolved s ≠ [])
    rw [hp, h5]
    congr 1
    apply Finset.filter_congr
    intro s _
    exact flagEq_unres_ne sp₁.1 sp₂.1 ⟨h1, h2, h3, h4, h5, h6, h7, h8⟩ s

theorem confFold_flagEq (v : Nat) (l : List Nat) (sp₁ sp₂ : St × Finset Nat)
    (h : FlagEq sp₁.1 sp₂.1) (hp : sp₁.2 = sp₂.2) :
    FlagEq (l.foldl (fun sp t => addConflictTarget v t sp) sp₁).1
      (l.foldl (fun sp t => addConflictTarget v t sp) sp₂).1 ∧
    (l.foldl (fun sp t => addConflictTarget v t sp) sp₁).2 =
      (l.foldl (fun sp t => addConflictTarget v t sp) sp₂).2 := by
  induction l generalizing sp₁ sp₂ with
  | nil => exact ⟨h, hp⟩
  | cons t ts ih =>
    obtain ⟨s1, s2⟩ := addConflictTarget_flagEq v t sp₁ sp₂ h hp
    exact ih (addConflictTarget v t sp₁) (addConflictTarget v t sp₂) s1 s2

/-- Registration is flag-oblivious up to the stored flag itself. -/
theorem registerGroup_flagEq (b₁ b₂ : Bool) (v : Nat) (g : OrGroup)
    (sp₁ sp₂ : St × Finset Nat) (h : FlagEq sp₁.1 sp₂.1) (hp : sp₁.2 = sp₂.2) :
    FlagEq (registerGroup b₁ v g sp₁).1 (registerGroup b₂ v g sp₂).1 ∧
    (registerGroup b₁ v g sp₁).2 = (registerGroup b₂ v g sp₂).2 := by
  obtain ⟨h1, h2, h3, h4, h5, h6, h7, h8⟩ := h
  have hnotifyFold : ∀ (σ σ' : St), σ.notify = σ'.notify →
      ((expandOrGroup g).foldl (fun σ t =>
        { σ with notify := updF σ.notify t (insert v (σ.notify t)) }) σ).notify =
      ((expandOrGroup g).foldl (fun σ t =>
        { σ with notify := updF σ.notify t (insert v (σ.notify t)) }) σ').notify := by
    intro σ σ' he
    induction (expandOrGroup g) generalizing σ σ' with
    | nil => exact he
    | cons t ts ih =>
      apply ih
      show updF σ.notify t (insert v (σ.notify t)) = updF σ'.notify t (insert v (σ'.notify t))
      rw [he]
  have hcast : ∀ (b : Bool) (sp : St × Finset Nat),
      (registerGroup b v g sp).1 = (expandOrGroup g).foldl
        (fun σ t => { σ with notify := updF σ.notify t (insert v (σ.notify t)) })
        { sp.1 with unresolved := updF sp.1.unresolved v (sp.1.unresolved v ++ [(b, g)]) } :=
    fun _ _ => rfl
  refine ⟨⟨?_, ?_, ?_, ?_, ?_, ?_, ?_, ?_⟩, hp⟩
  · rw [hcast b₁ sp₁, hcast b₂ sp₂,
      (notifyFold_proj v (expandOrGroup g) _).1, (notifyFold_proj v (expandOrGroup g) _).1]
    exact h1
  · rw [hcast b₁ sp₁, hcast b₂ sp₂,
      (notifyFold_proj v (expandOrGroup g) _).2.1, (notifyFold_proj v (expandOrGroup g) _).2.1]
    exact h2
  · rw [hcast b₁ sp₁, hcast b₂ sp₂,
      (notifyFold_proj v (expandOrGroup g) _).2.2.1, (notifyFold_proj v (expandOrGroup g) _).2.2.1]
    exact h3
  · intro w
    rw [hcast b₁ sp₁, hcast b₂ sp₂,
      (notifyFold_proj v (expandOrGroup g) _).2.2.2.1, (notifyFold_proj v (expandOrGroup g) _).2.2.2.1]
    show stripFlags (updF sp₁.1.unresolved v (sp₁.1.unresolved v ++ [(b₁, g)]) w) =
      stripFlags (updF sp₂.1.unresolved v (sp₂.1.unresolved v ++ [(b₂, g)]) w)
    by_cases hwv : w = v
    · subst hwv
      rw [updF_same, updF_same]
      show stripFlags (sp₁.1.unresolved w ++ [(b₁, g)]) =
        stripFlags (sp₂.1.unresolved w ++ [(b₂, g)])
      rw [stripFlags, stripFlags, List.map_append, List.map_append,
        show List.map Prod.snd (sp₁.1.unresolved w) = List.map Prod.snd (sp₂.1.unresolved w)
          from h4 w]
      rfl
    · rw [updF_other _ _ _ _ hwv, updF_other _ _ _ _ hwv]
      exact h4 w
  · rw [hcast b₁ sp₁, hcast b₂ sp₂]
    apply hnotifyFold
    show sp₁.1.notify = sp₂.1.notify
    exact h5
  · rw [hcast b₁ sp₁, hcast b₂ sp₂,
      (notifyFold_proj v (expandOrGroup g) _).2.2.2.2.1, (notifyFold_proj v (expandOrGroup g) _).2.2.2.2.1]
    exact h6
  · rw [hcast b₁ sp₁, hcast b₂ sp₂,
      (notifyFold_proj v (expandOrGroup g) _).2.2.2.2.2.1, (notifyFold_proj v (expandOrGroup g) _).2.2.2.2.2.1]
    exact h7
  · rw [hcast b₁ sp₁, hcast b₂ sp₂,
      (notifyFold_proj v (expandOrGroup g) _).2.2.2.2.2.2, (notifyFold_proj v (expandOrGroup g) _).2.2.2.2.2.2]
    exact h8

theorem replFold_flagEq (v : Nat) (l : List Nat) (sp₁ sp₂ : St × Finset Nat)
    (h : FlagEq sp₁.1 sp₂.1) (hp : sp₁.2 = sp₂.2) :
    FlagEq (l.foldl (fun sp t => (({ sp.1 with replacedBy := updF sp.1.replacedBy t (insert v (sp.1.replacedBy t)) } : St), sp.2)) sp₁).1
      (l.foldl (fun sp t => (({ sp.1 with replacedBy := updF sp.1.replacedBy t (insert v (sp.1.replacedBy t)) } : St), sp.2)) sp₂).1 ∧
    (l.foldl (fun sp t => (({ sp.1 with replacedBy := updF sp.1.replacedBy t (insert v (sp.1.replacedBy t)) } : St), sp.2)) sp₁).2 =
      (l.foldl (fun sp t => (({ sp.1 with replacedBy := updF sp.1.replacedBy t (insert v (sp.1.replacedBy t)) } : St), sp.2)) sp₂).2 := by
  induction l generalizing sp₁ sp₂ with
  | nil => exact ⟨h, hp⟩
  | cons t ts ih =>
    apply ih
    · obtain ⟨h1, h2, h3, h4, h5, h6, h7, h8⟩ := h
      refine ⟨h1, h2, h3, h4, h5, ?_, h7, h8⟩
      show updF sp₁.1.replacedBy t (insert v (sp₁.1.replacedBy t)) =
        updF sp₂.1.replacedBy t (insert v (sp₂.1.replacedBy t))
      rw [h6]
    · exact hp

/-- Every dependency-kind handler is flag-oblivious. -/
theorem dispatch_flagEq (k : Kind) (v : Nat) (g : OrGroup)
    (sp₁ sp₂ : St × Finset Nat) (h : FlagEq sp₁.1 sp₂.1) (hp : sp₁.2 = sp₂.2) :
    ExceptRel (dispatch k v g sp₁) (dispatch k v g sp₂) := by
  cases k
  case conflicts | breaks =>
    all_goals {
      show ExceptRel (resolveConflicts v g sp₁) (resolveConflicts v g sp₂)
      by_cases hg : g.length ≠ 1
      · rw [show resolveConflicts v g sp₁ = .error "unexpected conflicts" by
            simp [resolveConflicts, hg],
          show resolveConflicts v g sp₂ = .error "unexpected conflicts" by
            simp [resolveConflicts, hg]]
        exact rfl
      · rw [show resolveConflicts v g sp₁ =
            .ok ((expandOrGroup g).foldl (fun sp t => addConflictTarget v t sp) sp₁) by
            simp [resolveConflicts, hg],
          show resolveConflicts v g sp₂ =
            .ok ((expandOrGroup g).foldl (fun sp t => addConflictTarget v t sp) sp₂) by
            simp [resolveConflicts, hg]]
        exact confFold_flagEq v (expandOrGroup g) sp₁ sp₂ h hp
    }
  case replaces =>
    show ExceptRel (resolveReplaces v g sp₁) (resolveReplaces v g sp₂)
    by_cases hg : g.length ≠ 1
    · rw [show resolveReplaces v g sp₁ = .error "unexpected replaces" by
          simp [resolveReplaces, hg],
        show resolveReplaces v g sp₂ = .error "unexpected replaces" by
          simp [resolveReplaces, hg]]
      exact rfl
    · rw [show resolveReplaces v g sp₁ = .ok ((expandOrGroup g).foldl
          (fun sp t => (({ sp.1 with replacedBy := updF sp.1.replacedBy t (insert v (sp.1.replacedBy t)) } : St), sp.2)) sp₁) by
          simp [resolveReplaces, hg],
        show resolveReplaces v g sp₂ = .ok ((expandOrGroup g).foldl
          (fun sp t => (({ sp.1 with replacedBy := updF sp.1.replacedBy t (insert v (sp.1.replacedBy t)) } : St), sp.2)) sp₂) by
          simp [resolveReplaces, hg]]
      exact replFold_flagEq v (expandOrGroup g) sp₁ sp₂ h hp
  case enhances | obsoletes | suggests =>
    all_goals exact ⟨h, hp⟩
  case depends | preDepends | recommends =>
    all_goals exact registerGroup_flagEq true true v g sp₁ sp₂ h hp

theorem applyGroups_flagEq (k : Kind) (v : Nat) (gs : List OrGroup)
    (sp₁ sp₂ : St × Finset Nat) (h : FlagEq sp₁.1 sp₂.1) (hp : sp₁.2 = sp₂.2) :
    ExceptRel (applyGroups k v gs sp₁) (applyGroups k v gs sp₂) := by
  induction gs generalizing sp₁ sp₂ with
  | nil => exact ⟨h, hp⟩
  | cons g gs ih =>
    have hd := dispatch_flagEq k v g sp₁ sp₂ h hp
    rcases hd₁ : dispatch k v g sp₁ with e₁ | t₁ <;>
      rcases hd₂ : dispatch k v g sp₂ with e₂ | t₂ <;>
        rw [hd₁, hd₂] at hd
    · rw [show applyGroups k v (g :: gs) sp₁ = .error e₁ by simp [applyGroups, hd₁],
        show applyGroups k v (g :: gs) sp₂ = .error e₂ by simp [applyGroups, hd₂]]
      exact hd
    · cases hd
    · cases hd
    · rw [show applyGroups k v (g :: gs) sp₁ = applyGroups k v gs t₁ by simp [applyGroups, hd₁],
        show applyGroups k v (g :: gs) sp₂ = applyGroups k v gs t₂ by simp [applyGroups, hd₂]]
      exact ih t₁ t₂ hd.1 hd.2

theorem applyDeps_flagEq (v : Nat) (ds : List (Kind × List OrGroup))
    (sp₁ sp₂ : St × Finset Nat) (h : FlagEq sp₁.1 sp₂.1) (hp : sp₁.2 = sp₂.2) :
    ExceptRel (applyDeps v ds sp₁) (applyDeps v ds sp₂) := by
  induction ds generalizing sp₁ sp₂ with
  | nil => exact ⟨h, hp⟩
  | cons d ds ih =>
    have hd := applyGroups_flagEq d.1 v d.2 sp₁ sp₂ h hp
    rcases hd₁ : applyGroups d.1 v d.2 sp₁ with e₁ | t₁ <;>
      rcases hd₂ : applyGroups d.1 v d.2 sp₂ with e₂ | t₂ <;>
        rw [hd₁, hd₂] at hd
    · rw [show applyDeps v (d :: ds) sp₁ = .error e₁ by cases d; simp [applyDeps, hd₁],
        show applyDeps v (d :: ds) sp₂ = .error e₂ by cases d; simp [applyDeps, hd₂]]
      exact hd
    · cases hd
    · cases hd
    · rw [show applyDeps v (d :: ds) sp₁ = applyDeps v ds t₁ by cases d; simp_all [applyDeps],
        show applyDeps v (d :: ds) sp₂ = applyDeps v ds t₂ by cases d; simp_all [applyDeps]]
      exact ih t₁ t₂ hd.1 hd.2

theorem rankVersion_flagEq (db : DB) (hint : Option String) (v : Nat)
    (sp₁ sp₂ : St × Finset Nat) (h : FlagEq sp₁.1 sp₂.1) (hp : sp₁.2 = sp₂.2) :
    ExceptRel (rankVersion db hint v sp₁) (rankVersion db hint v sp₂) := by
  obtain ⟨h1, h2, h3, h4, h5, h6, h7, h8⟩ := h
  by_cases hr : sp₁.1.rank v = none
  · have hr₂ : sp₂.1.rank v = none := by
      rw [← h1]
      exact hr
    have hmod : FlagEq
        ({ sp₁.1 with rank := updF sp₁.1.rank v (some sp₁.1.gen),
                      hint := updF sp₁.1.hint v hint } : St)
        ({ sp₂.1 with rank := updF sp₂.1.rank v (some sp₂.1.gen),
                      hint := updF sp₂.1.hint v hint } : St) := by
      refine ⟨?_, ?_, h3, h4, h5, h6, h7, h8⟩
      · show updF sp₁.1.rank v (some sp₁.1.gen) = updF sp₂.1.rank v (some sp₂.1.gen)
        rw [h1, h8]
      · show updF sp₁.1.hint v hint = updF sp₂.1.hint v hint
        rw [h2]
    have hd := applyDeps_flagEq v (db.deps v)
      ({ sp₁.1 with rank := updF sp₁.1.rank v (some sp₁.1.gen),
                    hint := updF sp₁.1.hint v hint }, sp₁.2)
      ({ sp₂.1 with rank := updF sp₂.1.rank v (some sp₂.1.gen),
                    hint := updF sp₂.1.hint v hint }, sp₂.2) hmod hp
    rcases hd₁ : applyDeps v (db.deps v)
        ({ sp₁.1 with rank := updF sp₁.1.rank v (some sp₁.1.gen),
                      hint := updF sp₁.1.hint v hint }, sp₁.2) with e₁ | t₁ <;>
      rcases hd₂ : applyDeps v (db.deps v)
          ({ sp₂.1 with rank := updF sp₂.1.rank v (some sp₂.1.gen),
                        hint := updF sp₂.1.hint v hint }, sp₂.2) with e₂ | t₂ <;>
        rw [hd₁, hd₂] at hd
    · rw [show rankVersion db hint v sp₁ = .error e₁ by simp [rankVersion, hr, hd₁],
        show rankVersion db hint v sp₂ = .error e₂ by simp [rankVersion, hr₂, hd₂]]
      exact hd
    · cases hd
    · cases hd
    · rw [show rankVersion db hint v sp₁ = .ok (t₁.1, t₁.2 ∪ t₁.1.notify v) by
          simp [rankVersion, hr, hd₁],
        show rankVersion db hint v sp₂ = .ok (t₂.1, t₂.2 ∪ t₂.1.notify v) by
          simp [rankVersion, hr₂, hd₂]]
      refine ⟨hd.1, ?_⟩
      show t₁.2 ∪ t₁.1.notify v = t₂.2 ∪ t₂.1.notify v
      rw [hd.2, show t₁.1.notify = t₂.1.notify from hd.1.2.2.2.2.1]
  · have hr₂ : ¬ sp₂.1.rank v = none := by
      rw [← h1]
      exact hr
    rw [rankVersion_skip db hint v sp₁ hr, rankVersion_skip db hint v sp₂ hr₂]
    exact ⟨⟨h1, h2, h3, h4, h5, h6, h7, h8⟩, hp⟩

theorem rankWave_flagEq (db : DB) (hint : Option String) (wave : List Nat)
    (sp₁ sp₂ : St × Finset Nat) (h : FlagEq sp₁.1 sp₂.1) (hp : sp₁.2 = sp₂.2) :
    ExceptRel (rankWave db hint wave sp₁) (rankWave db hint wave sp₂) := by
  induction wave generalizing sp₁ sp₂ with
  | nil => exact ⟨h, hp⟩
  | cons v vs ih =>
    have hd := rankVersion_flagEq db hint v sp₁ sp₂ h hp
    rcases hd₁ : rankVersion db hint v sp₁ with e₁ | t₁ <;>
      rcases hd₂ : rankVersion db hint v sp₂ with e₂ | t₂ <;>
        rw [hd₁, hd₂] at hd
    · rw [show rankWave db hint (v :: vs) sp₁ = .error e₁ by simp [rankWave, hd₁],
        show rankWave db hint (v :: vs) sp₂ = .error e₂ by simp [rankWave, hd₂]]
      exact hd
    · cases hd
    · cases hd
    · rw [show rankWave db hint (v :: vs) sp₁ = rankWave db hint vs t₁ by simp [rankWave, hd₁],
        show rankWave db hint (v :: vs) sp₂ = rankWave db hint vs t₂ by simp [rankWave, hd₂]]
      exact ih t₁ t₂ hd.1 hd.2

theorem drainList_flagEq (l : List Nat) (σ₁ σ₂ : St) (acc₁ acc₂ : Finset Nat)
    (h : FlagEq σ₁ σ₂) (ha : acc₁ = acc₂) :
    FlagEq (drainList σ₁ l acc₁).1 (drainList σ₂ l acc₂).1 ∧
    (drainList σ₁ l acc₁).2 = (drainList σ₂ l acc₂).2 := by
  induction l generalizing σ₁ σ₂ acc₁ acc₂ with
  | nil => exact ⟨h, ha⟩
  | cons v vs ih =>
    obtain ⟨hg1, hg2⟩ := drainGroups_flagEq σ₁ σ₂ h (σ₁.unresolved v) (σ₂.unresolved v)
      (h.2.2.2.1 v)
    apply ih
    · obtain ⟨h1, h2, h3, h4, h5, h6, h7, h8⟩ := h
      refine ⟨h1, h2, h3, ?_, h5, h6, h7, h8⟩
      intro w
      show stripFlags (updF σ₁.unresolved v (drainGroups σ₁ (σ₁.unresolved v)).1 w) =
        stripFlags (updF σ₂.unresolved v (drainGroups σ₂ (σ₂.unresolved v)).1 w)
      by_cases hwv : w = v
      · subst hwv
        rw [updF_same, updF_same]
        exact hg1
      · rw [updF_other _ _ _ _ hwv, updF_other _ _ _ _ hwv]
        exact h4 w
    · rw [ha, hg2]

/-- `rank_once` is flag-oblivious. -/
theorem rankOnce_flagEq (db : DB) (σ₁ σ₂ : St) (wave : List Nat)
    (hint : Option String) (h : FlagEq σ₁ σ₂) :
    ExceptRel (rankOnce db σ₁ wave hint) (rankOnce db σ₂ wave hint) := by
  have hinit : FlagEq ({ σ₁ with gen := σ₁.gen + 1 } : St) ({ σ₂ with gen := σ₂.gen + 1 } : St) := by
    obtain ⟨h1, h2, h3, h4, h5, h6, h7, h8⟩ := h
    exact ⟨h1, h2, h3, h4, h5, h6, h7, by rw [show σ₁.gen = σ₂.gen from h8]⟩
  have hph := rankWave_flagEq db hint wave
    ({ σ₁ with gen := σ₁.gen + 1 }, wave.toFinset)
    ({ σ₂ with gen := σ₂.gen + 1 }, wave.toFinset) hinit rfl
  rcases hp₁ : rankOncePhase db σ₁ wave hint with e₁ | t₁ <;>
    rcases hp₂ : rankOncePhase db σ₂ wave hint with e₂ | t₂ <;>
      rw [show rankOncePhase db σ₁ wave hint = rankWave db hint wave
          ({ σ₁ with gen := σ₁.gen + 1 }, wave.toFinset) from rfl] at hp₁ <;>
      rw [show rankOncePhase db σ₂ wave hint = rankWave db hint wave
          ({ σ₂ with gen := σ₂.gen + 1 }, wave.toFinset) from rfl] at hp₂ <;>
      rw [hp₁, hp₂] at hph
  · rw [show rankOnce db σ₁ wave hint = .error e₁ by simp [rankOnce, rankOncePhase, hp₁],
      show rankOnce db σ₂ wave hint = .error e₂ by simp [rankOnce, rankOncePhase, hp₂]]
    exact hph
  · cases hph
  · cases hph
  · rw [show rankOnce db σ₁ wave hint = .ok (drainList t₁.1 (canonOrder db t₁.2) ∅) by
        simp [rankOnce, rankOncePhase, hp₁],
      show rankOnce db σ₂ wave hint = .ok (drainList t₂.1 (canonOrder db t₂.2) ∅) by
        simp [rankOnce, rankOncePhase, hp₂]]
    rw [show t₂.2 = t₁.2 from hph.2.symm]
    exact drainList_flagEq (canonOrder db t₁.2) t₁.1 t₂.1 ∅ ∅ hph.1 rfl

/-- The whole wave loop is flag-oblivious. -/
theorem rankLoop_flagEq (db : DB) (fuel : Nat) :
    ∀ (σ₁ σ₂ : St) (wave : Finset Nat) hint, FlagEq σ₁ σ₂ →
    RunRel (rankLoop db fuel σ₁ wave hint) (rankLoop db fuel σ₂ wave hint) := by
  induction fuel with
  | zero =>
    intro σ₁ σ₂ wave hint _
    exact trivial
  | succ n ih =>
    intro σ₁ σ₂ wave hint h
    by_cases hw : wave = ∅
    · rw [show rankLoop db (n + 1) σ₁ wave hint = some (.ok σ₁) by simp [rankLoop, hw],
        show rankLoop db (n + 1) σ₂ wave hint = some (.ok σ₂) by simp [rankLoop, hw]]
      exact h
    · have ho := rankOnce_flagEq db σ₁ σ₂ (sortWave db wave) hint h
      rcases ho₁ : rankOnce db σ₁ (sortWave db wave) hint with e₁ | t₁ <;>
        rcases ho₂ : rankOnce db σ₂ (sortWave db wave) hint with e₂ | t₂ <;>
          rw [ho₁, ho₂] at ho
      · rw [show rankLoop db (n + 1) σ₁ wave hint = some (.error e₁) by
            simp [rankLoop, hw, ho₁],
          show rankLoop db (n + 1) σ₂ wave hint = some (.error e₂) by
            simp [rankLoop, hw, ho₂]]
        exact ho
      · cases ho
      · cases ho
      · rw [show rankLoop db (n + 1) σ₁ wave hint = rankLoop db n t₁.1 t₁.2 none by
            simp [rankLoop, hw, ho₁],
          show rankLoop db (n + 1) σ₂ wave hint = rankLoop db n t₂.1 t₂.2 none by
            simp [rankLoop, hw, ho₂]]
        rw [show t₂.2 = t₁.2 from ho.2.symm]
        exact ih t₁.1 t₂.1 t₁.2 none ho.1

theorem ruGroups_flagEq (db : DB) (fuel : Nat) :
    ∀ (l₁ l₂ : List (Bool × OrGroup)) (σ₁ σ₂ : St) (res : Bool),
    stripFlags l₁ = stripFlags l₂ → FlagEq σ₁ σ₂ →
    PassRel (ruGroups db fuel l₁ σ₁ res) (ruGroups db fuel l₂ σ₂ res) := by
  intro l₁
  induction l₁ with
  | nil =>
    intro l₂ σ₁ σ₂ res hl h
    cases l₂ with
    | nil => exact ⟨h, rfl⟩
    | cons q r => cases hl
  | cons p r₁ ih =>
    intro l₂ σ₁ σ₂ res hl h
    cases l₂ with
    | nil => cases hl
    | cons q r₂ =>
      cases p with
      | mk b₁ g₁ =>
        cases q with
        | mk b₂ g₂ =>
          obtain ⟨hg, hr⟩ : g₁ = g₂ ∧ stripFlags r₁ = stripFlags r₂ := by
            rw [stripFlags, stripFlags, List.map_cons, List.map_cons] at hl
            exact ⟨List.head_eq_of_cons_eq hl, List.tail_eq_of_cons_eq hl⟩
          subst hg
          have hrank : (fun t => truthy (σ₁.rank t)) = fun t => truthy (σ₂.rank t) := by
            rw [h.1]
          by_cases hany : (expandOrGroup g₁).any (fun t => truthy (σ₁.rank t)) = true
          · rw [show ruGroups db fuel ((b₁, g₁) :: r₁) σ₁ res = ruGroups db fuel r₁ σ₁ res by
                simp [ruGroups, hany],
              show ruGroups db fuel ((b₂, g₁) :: r₂) σ₂ res = ruGroups db fuel r₂ σ₂ res by
                simp [ruGroups, hrank ▸ hany]]
            exact ih r₂ σ₁ σ₂ res hr h
          · have hany₂ : ¬ (expandOrGroup g₁).any (fun t => truthy (σ₂.rank t)) = true :=
              hrank ▸ hany
            rcases hc : resolveOnce σ₁ (expandOrGroup g₁) true with _ | c
            · rw [show ruGroups db fuel ((b₁, g₁) :: r₁) σ₁ res = ruGroups db fuel r₁ σ₁ res by
                  simp [ruGroups, hany, hc],
                show ruGroups db fuel ((b₂, g₁) :: r₂) σ₂ res = ruGroups db fuel r₂ σ₂ res by
                  simp [ruGroups, hany₂,
                    (flagEq_resolveOnce σ₁ σ₂ h (expandOrGroup g₁) true) ▸ hc]]
              exact ih r₂ σ₁ σ₂ res hr h
            · have hc₂ : resolveOnce σ₂ (expandOrGroup g₁) true = some c :=
                (flagEq_resolveOnce σ₁ σ₂ h (expandOrGroup g₁) true) ▸ hc
              have hrl := rankLoop_flagEq db fuel σ₁ σ₂ {c} (some "C") h
              rcases hrl₁ : rankLoop db fuel σ₁ {c} (some "C") with _ | e₁ | τ₁ <;>
                rcases hrl₂ : rankLoop db fuel σ₂ {c} (some "C") with _ | e₂ | τ₂ <;>
                  rw [hrl₁, hrl₂] at hrl
              · rw [show ruGroups db fuel ((b₁, g₁) :: r₁) σ₁ res = none by
                    simp [ruGroups, hany, hc, hrl₁],
                  show ruGroups db fuel ((b₂, g₁) :: r₂) σ₂ res = none by
                    simp [ruGroups, hany₂, hc₂, hrl₂]]
                exact trivial
              · cases hrl
              · cases hrl
              · cases hrl
              · rw [show ruGroups db fuel ((b₁, g₁) :: r₁) σ₁ res = some (.error e₁) by
                    simp [ruGroups, hany, hc, hrl₁],
                  show ruGroups db fuel ((b₂, g₁) :: r₂) σ₂ res = some (.error e₂) by
                    simp [ruGroups, hany₂, hc₂, hrl₂]]
                exact hrl
              · cases hrl
              · cases hrl
              · cases hrl
              · rw [show ruGroups db fuel ((b₁, g₁) :: r₁) σ₁ res = ruGroups db fuel r₁ τ₁ true by
                    simp [ruGroups, hany, hc, hrl₁],
                  show ruGroups db fuel ((b₂, g₁) :: r₂) σ₂ res = ruGroups db fuel r₂ τ₂ true by
                    simp [ruGroups, hany₂, hc₂, hrl₂]]
                exact ih r₂ τ₁ τ₂ true hr hrl

theorem ruVersions_flagEq (db : DB) (fuel : Nat) (l : List Nat) :
    ∀ (σ₁ σ₂ : St) (res : Bool), FlagEq σ₁ σ₂ →
    PassRel (ruVersions db fuel l σ₁ res) (ruVersions db fuel l σ₂ res) := by
  induction l with
  | nil =>
    intro σ₁ σ₂ res h
    exact ⟨h, rfl⟩
  | cons v vs ih =>
    intro σ₁ σ₂ res h
    by_cases hcond : truthy (σ₁.rank v) = true ∧ σ₁.unresolved v ≠ []
    · have hcond₂ : truthy (σ₂.rank v) = true ∧ σ₂.unresolved v ≠ [] :=
        ⟨h.1 ▸ hcond.1, (flagEq_unres_ne σ₁ σ₂ h v).1 hcond.2⟩
      have hg := ruGroups_flagEq db fuel (σ₁.unresolved v) (σ₂.unresolved v) σ₁ σ₂ res
        (h.2.2.2.1 v) h
      rcases hg₁ : ruGroups db fuel (σ₁.unresolved v) σ₁ res with _ | e₁ | t₁ <;>
        rcases hg₂ : ruGroups db fuel (σ₂.unresolved v) σ₂ res with _ | e₂ | t₂ <;>
          rw [hg₁, hg₂] at hg
      · rw [show ruVersions db fuel (v :: vs) σ₁ res = none by
            simp [ruVersions, hcond, hg₁],
          show ruVersions db fuel (v :: vs) σ₂ res = none by
            simp [ruVersions, hcond₂, hg₂]]
        exact trivial
      · cases hg
      · cases hg
      · cases hg
      · rw [show ruVersions db fuel (v :: vs) σ₁ res = some (.error e₁) by
            simp [ruVersions, hcond, hg₁],
          show ruVersions db fuel (v :: vs) σ₂ res = some (.error e₂) by
            simp [ruVersions, hcond₂, hg₂]]
        exact hg
      · cases hg
      · cases hg
      · cases hg
      · rw [show ruVersions db fuel (v :: vs) σ₁ res = ruVersions db fuel vs t₁.1 t₁.2 by
            simp [ruVersions, hcond, hg₁],
          show ruVersions db fuel (v :: vs) σ₂ res = ruVersions db fuel vs t₂.1 t₂.2 by
            simp [ruVersions, hcond₂, hg₂]]
        rw [show t₂.2 = t₁.2 from hg.2.symm]
        exact ih t₁.1 t₂.1 t₁.2 hg.1
    · have hcond₂ : ¬ (truthy (σ₂.rank v) = true ∧ σ₂.unresolved v ≠ []) := by
        intro hc
        exact hcond ⟨h.1 ▸ hc.1, (flagEq_unres_ne σ₁ σ₂ h v).2 hc.2⟩
      rw [show ruVersions db fuel (v :: vs) σ₁ res = ruVersions db fuel vs σ₁ res by
          simp [ruVersions, hcond],
        show ruVersions db fuel (v :: vs) σ₂ res = ruVersions db fuel vs σ₂ res by
          simp [ruVersions, hcond₂]]
      exact ih σ₁ σ₂ res h

theorem rankUnresolvedLoop_flagEq (db : DB) (fuel : Nat) (n : Nat) :
    ∀ (σ₁ σ₂ : St), FlagEq σ₁ σ₂ →
    RunRel (rankUnresolvedLoop db fuel n σ₁) (rankUnresolvedLoop db fuel n σ₂) := by
  induction n with
  | zero =>
    intro σ₁ σ₂ _
    exact trivial
  | succ p ih =>
    intro σ₁ σ₂ h
    have hv := ruVersions_flagEq db fuel db.vers σ₁ σ₂ false h
    rcases hv₁ : ruVersions db fuel db.vers σ₁ false with _ | e₁ | t₁ <;>
      rcases hv₂ : ruVersions db fuel db.vers σ₂ false with _ | e₂ | t₂ <;>
        rw [hv₁, hv₂] at hv
    · rw [show rankUnresolvedLoop db fuel (p + 1) σ₁ = none by
          simp [rankUnresolvedLoop, hv₁],
        show rankUnresolvedLoop db fuel (p + 1) σ₂ = none by
          simp [rankUnresolvedLoop, hv₂]]
      exact trivial
    · cases hv
    · cases hv
    · cases hv
    · rw [show rankUnresolvedLoop db fuel (p + 1) σ₁ = some (.error e₁) by
          simp [rankUnresolvedLoop, hv₁],
        show rankUnresolvedLoop db fuel (p + 1) σ₂ = some (.error e₂) by
          simp [rankUnresolvedLoop, hv₂]]
      exact hv
    · cases hv
    · cases hv
    · cases hv
    · rcases hb : t₁.2 with _ | _
      · rw [show rankUnresolvedLoop db fuel (p + 1) σ₁ = some (.ok t₁.1) by
            simp [rankUnresolvedLoop, hv₁, hb],
          show rankUnresolvedLoop db fuel (p + 1) σ₂ = some (.ok t₂.1) by
            simp [rankUnresolvedLoop, hv₂, hv.2 ▸ hb]]
        exact hv.1
      · rw [show rankUnresolvedLoop db fuel (p + 1) σ₁ = rankUnresolvedLoop db fuel p t₁.1 by
            simp [rankUnresolvedLoop, hv₁, hb],
          show rankUnresolvedLoop db fuel (p + 1) σ₂ = rankUnresolvedLoop db fuel p t₂.1 by
            simp [rankUnresolvedLoop, hv₂, hv.2 ▸ hb]]
        exact ih t₁.1 t₂.1 hv.1

/-- The data content of the `UNRESOLVED:` report is flag-oblivious. -/
theorem dumpUnresolvedData_flagEq (db : DB) (σ₁ σ₂ : St) (h : FlagEq σ₁ σ₂) :
    dumpUnresolvedData db σ₁ = dumpUnresolvedData db σ₂ := by
  have hmap : ∀ (v : Nat) (l : List (Bool × OrGroup)),
      l.map (fun p => (v, p.2)) = (stripFlags l).map (fun g => (v, g)) := by
    intro v l
    rw [stripFlags, List.map_map]
    rfl
  unfold dumpUnresolvedData
  induction db.vers with
  | nil => rfl
  | cons v vs ih =>
    rw [List.foldr_cons, List.foldr_cons, ih]
    by_cases hcond : truthy (σ₁.rank v) = true ∧ σ₁.unresolved v ≠ []
    · have hcond₂ : truthy (σ₂.rank v) = true ∧ σ₂.unresolved v ≠ [] :=
        ⟨h.1 ▸ hcond.1, (flagEq_unres_ne σ₁ σ₂ h v).1 hcond.2⟩
      rw [if_pos hcond, if_pos hcond₂, hmap v (σ₁.unresolved v), hmap v (σ₂.unresolved v),
        h.2.2.2.1 v]
    · have hcond₂ : ¬ (truthy (σ₂.rank v) = true ∧ σ₂.unresolved v ≠ []) := by
        intro hc
        exact hcond ⟨h.1 ▸ hc.1, (flagEq_unres_ne σ₁ σ₂ h v).2 hc.2⟩
      rw [if_neg hcond, if_neg hcond₂]

/-- C10.  The two successive source definitions of the Depends handler differ
only in the stored `optional` flag; that flag is read by no part of wave
resolution, escalation or reporting, so the shadowed and the reachable
definitions are observationally equivalent, and Depends, PreDepends and
Recommends are handled identically: (i) PreDepends dispatches to the same
handler as Depends, and the Recommends handler equals the reachable Depends
handler; (ii) the two Depends definitions produce flag-equal states; (iii)
flag-equal states stay flag-equal — with identical ranks, hints, result sets,
errors and report data — through `rank_once`, the wave loop, the escalation
loop and the unresolved report. -/
theorem C10_optional_flag_inert (db : DB) :
    (∀ v g sp, resolveRecommends v g sp = resolveDepends v g sp) ∧
    dispatch Kind.preDepends = dispatch Kind.depends ∧
    dispatch Kind.depends = resolveDepends ∧
    dispatch Kind.recommends = resolveRecommends ∧
    (∀ v g sp, ExceptRel (resolveDependsShadowed v g sp) (resolveDepends v g sp)) ∧
    (∀ σ₁ σ₂ wave hint, FlagEq σ₁ σ₂ →
      ExceptRel (rankOnce db σ₁ wave hint) (rankOnce db σ₂ wave hint)) ∧
    (∀ fuel σ₁ σ₂ (wave : Finset Nat) hint, FlagEq σ₁ σ₂ →
      RunRel (rankLoop db fuel σ₁ wave hint) (rankLoop db fuel σ₂ wave hint)) ∧
    (∀ fuel n σ₁ σ₂, FlagEq σ₁ σ₂ →
      RunRel (rankUnresolvedLoop db fuel n σ₁) (rankUnresolvedLoop db fuel n σ₂)) ∧
    (∀ σ₁ σ₂, FlagEq σ₁ σ₂ → dumpUnresolvedData db σ₁ = dumpUnresolvedData db σ₂) := by
  refine ⟨fun v g sp => rfl, rfl, rfl, rfl, ?_, ?_, ?_, ?_, ?_⟩
  · intro v g sp
    exact registerGroup_flagEq false true v g sp sp (flagEq_refl sp.1) rfl
  · intro σ₁ σ₂ wave hint h
    exact rankOnce_flagEq db σ₁ σ₂ wave hint h
  · intro fuel σ₁ σ₂ wave hint h
    exact rankLoop_flagEq db fuel σ₁ σ₂ wave hint h
  · intro fuel n σ₁ σ₂ h
    exact rankUnresolvedLoop_flagEq db fuel n σ₁ σ₂ h
  · intro σ₁ σ₂ h
    exact dumpUnresolvedData_flagEq db σ₁ σ₂ h

/-- The state of `db8` with version `0`'s group stored by the shadowed
(historical) Depends handler. -/
def σ10a : St := (registerGroup false 0 [[1]] (initSt db8, ∅)).1

/-- The same state with the group stored by the reachable Depends handler. -/
def σ10b : St := (registerGroup true 0 [[1]] (initSt db8, ∅)).1

theorem flagEq_σ10 : FlagEq σ10a σ10b := by
  refine ⟨rfl, rfl, rfl, ?_, rfl, rfl, rfl, rfl⟩
  intro v
  by_cases hv : v = 0
  · subst hv
    rfl
  · show stripFlags (updF (initSt db8).unresolved 0 ((initSt db8).unresolved 0 ++ [(false, [[1]])]) v) =
      stripFlags (updF (initSt db8).unresolved 0 ((initSt db8).unresolved 0 ++ [(true, [[1]])]) v)
    rw [updF_other _ _ _ _ hv, updF_other _ _ _ _ hv]

set_option maxHeartbeats 1000000 in
/-- Witness for C10: running the wave loop from the shadowed-flag state and
from the reachable-flag state of `db8` gives flag-equal outcomes. -/
theorem C10_witness :
    FlagEq σ10a σ10b ∧
    RunRel (rankLoop db8 5 σ10a {0} (some "W")) (rankLoop db8 5 σ10b {0} (some "W")) :=
  ⟨flagEq_σ10,
    (C10_optional_flag_inert db8).2.2.2.2.2.2.1 5 σ10a σ10b {0} (some "W") flagEq_σ10⟩

end Aptorphan
